import Mathlib

/-!
# pv-migrate: rsync progress parsing and job supervision

A verification development for `internal/k8s/progress.go` and
`internal/k8s/job.go`.

Strings are modelled as `List Char` (a Go string that is valid UTF-8, read
rune by rune).  Go's `int` and `int64` are modelled as `Int`; the only places
where the 64-bit range matters are `strconv.ParseInt` (range check) and the
conversion `int64(float64)`, and both are modelled with their explicit bounds.
-/

set_option maxRecDepth 100000

namespace PvMigrate

/-! ## Character classes of the two regular expressions -/

/-- Perl class `\s` of Go's `regexp/syntax`: `[\t\n\f\r ]`. -/
def isSpace (c : Char) : Bool :=
  c == '\t' || c == '\n' || c == Char.ofNat 12 || c == '\r' || c == ' '

/-- Class `[0-9]`. -/
def isDigit (c : Char) : Bool :=
  decide (48 ≤ c.toNat) && decide (c.toNat ≤ 57)

/-! ## A backtracking matcher with Go's leftmost-first semantics

Go's `regexp` returns the match that starts leftmost and, among those, the one
a backtracking search finds first.  `Regex.run` enumerates the outcomes of a
backtracking search in the order in which the search would find them.
-/

/-- Regular expressions, as far as the two patterns of `progress.go` need them. -/
inductive Regex where
  | cls (p : Char → Bool)
  | seq (a b : Regex)
  | star (a : Regex)
  | opt (a : Regex)
  | group (idx : Nat) (a : Regex)

/-- Capture assignments made so far, newest first. -/
abbrev Caps := List (Nat × List Char)

/-- A matcher state: the input still to be read and the captures made. -/
abbrev MState := List Char × Caps

/-- Greedy iteration: try one more round of `step` (it has to consume input),
then fall back to stopping here.  `fuel` bounds the number of rounds. -/
def starLoop (step : MState → List MState) : Nat → MState → List MState
  | 0, st => [st]
  | fuel + 1, st =>
    ((step st).filter (fun st' => decide (st'.1.length < st.1.length))).flatMap
      (starLoop step fuel) ++ [st]

/-- All outcomes of matching `r` at the front of the input, in backtracking
order (the head is the match the search finds first). -/
def Regex.run : Regex → MState → List MState
  | .cls p, (c :: cs, k) => if p c then [(cs, k)] else []
  | .cls _, ([], _) => []
  | .seq a b, st => (a.run st).flatMap (fun st' => b.run st')
  | .star a, st => starLoop (fun st' => a.run st') st.1.length st
  | .opt a, st => a.run st ++ [st]
  | .group i a, st =>
    (a.run st).map (fun st' => (st'.1, (i, st.1.take (st.1.length - st'.1.length)) :: st'.2))

/-- One literal character. -/
def Regex.chr (c : Char) : Regex := .cls (fun x => x == c)

/-- A literal string. -/
def Regex.lit : List Char → Regex
  | [] => .opt (.cls (fun _ => false))
  | [c] => .chr c
  | c :: cs => .seq (.chr c) (Regex.lit cs)

/-- Greedy `a+`. -/
def Regex.plus (a : Regex) : Regex := .seq a (.star a)

/-- A compiled pattern: the expression and `SubexpNames()`. -/
structure Regexp where
  re : Regex
  names : List String

/-- The value of capture group `i`: its latest assignment, `""` when unset. -/
def capGet (k : Caps) (i : Nat) : List Char :=
  match k.find? (fun e => e.1 == i) with
  | some e => e.2
  | none => []

/-- An anchored attempt at the front of `s`: the first outcome of the
backtracking search, as the slice of submatches (whole match first). -/
def matchAt (r : Regexp) (s : List Char) : Option (List (List Char)) :=
  match (r.re.run (s, [])).head? with
  | none => none
  | some st =>
    some (s.take (s.length - st.1.length) ::
      (List.range (r.names.length - 1)).map (fun i => capGet st.2 (i + 1)))

/-- Method `(*Regexp).FindStringSubmatch`: the leftmost start position at which an
anchored attempt succeeds. -/
def FindStringSubmatch (r : Regexp) : List Char → Option (List (List Char))
  | [] => matchAt r []
  | c :: cs =>
    match matchAt r (c :: cs) with
    | some m => some m
    | none => FindStringSubmatch r cs

/-! ## The patterns -/

/-- The repeated part `(,[0-9]+)` of a byte count, as group `i`. -/
def commaGroup (i : Nat) : Regex :=
  .group i (.seq (Regex.chr ',') (Regex.plus (.cls isDigit)))

/-- Pattern `[0-9]+(,[0-9]+)*` with the inner group numbered `inner`. -/
def bytesRe (inner : Nat) : Regex :=
  .seq (Regex.plus (.cls isDigit)) (.star (commaGroup inner))

/-- Pattern `[0-9]{1,3}`, which `regexp/syntax` simplifies to `[0-9]([0-9]([0-9])?)?`. -/
def pctRe : Regex :=
  .seq (.cls isDigit) (.opt (.seq (.cls isDigit) (.opt (.cls isDigit))))

/-- Pattern `\s*(?P<bytes>[0-9]+(,[0-9]+)*)\s+(?P<percentage>[0-9]{1,3})%`. -/
def progressRegex : Regexp where
  re := .seq (.star (.cls isSpace))
    (.seq (.group 1 (bytesRe 2))
      (.seq (Regex.plus (.cls isSpace))
        (.seq (.group 3 pctRe) (Regex.chr '%'))))
  names := ["", "bytes", "", "percentage"]

/-- Pattern `\s*total size is (?P<bytes>[0-9]+(,[0-9]+)*)`. -/
def rsyncEndRegex : Regexp where
  re := .seq (.star (.cls isSpace))
    (.seq (Regex.lit "total size is ".toList) (.group 1 (bytesRe 2)))
  names := ["", "bytes", ""]

/-! ## Maps of named matches -/

/-- A Go `map[string]string` as an association list with distinct keys. -/
abbrev StrMap := List (String × List Char)

/-- Assignment `m[key] = v`. -/
def mapSet (m : StrMap) (key : String) (v : List Char) : StrMap :=
  (key, v) :: m.filter (fun e => e.1 != key)

/-- Lookup `m[key]`, the empty string when the key is absent. -/
def mapGet (m : StrMap) (key : String) : List Char :=
  match m.find? (fun e => e.1 == key) with
  | some e => e.2
  | none => []

/-- Function `findNamedMatches`: the submatches keyed by subexpression name. -/
def findNamedMatches (r : Regexp) (str : List Char) : StrMap :=
  match FindStringSubmatch r str with
  | none => []
  | some m => (List.zip r.names m).foldl (fun acc e => mapSet acc e.1 e.2) []

/-! ## `strconv` -/

/-- The two sentinel errors of `strconv`. -/
inductive ErrKind where
  | ErrRange
  | ErrSyntax
  deriving DecidableEq, Repr

/-- Go's `*strconv.NumError`. -/
structure NumError where
  Func : String
  Num : List Char
  Err : ErrKind
  deriving DecidableEq, Repr

/-- The digit loop of `strconv.ParseUint(s, 10, 64)`, started with accumulator `n`. -/
def parseUintLoop (s0 : List Char) : Nat → List Char → Except NumError Nat
  | n, [] => .ok n
  | n, c :: cs =>
    if isDigit c then
      let d := c.toNat - 48
      if n ≥ (2 ^ 64 - 1) / 10 + 1 then
        .error ⟨"ParseUint", s0, .ErrRange⟩
      else
        let n10 := n * 10
        let n1 := (n10 + d) % 2 ^ 64
        if n1 < n10 ∨ n1 > 2 ^ 64 - 1 then
          .error ⟨"ParseUint", s0, .ErrRange⟩
        else parseUintLoop s0 n1 cs
    else .error ⟨"ParseUint", s0, .ErrSyntax⟩

/-- Function `strconv.ParseUint(s, 10, 64)`. -/
def ParseUint (s : List Char) : Except NumError Nat :=
  if s = [] then .error ⟨"ParseUint", s, .ErrSyntax⟩ else parseUintLoop s 0 s

/-- Function `strconv.ParseInt(s, 10, 64)`. -/
def ParseInt (s0 : List Char) : Except NumError Int :=
  match s0 with
  | [] => .error ⟨"ParseInt", s0, .ErrSyntax⟩
  | c :: cs =>
    let neg := c == '-'
    let s := if c == '+' || c == '-' then cs else c :: cs
    match ParseUint s with
    | .error e =>
      match e.Err with
      | .ErrSyntax => .error ⟨"ParseInt", s0, .ErrSyntax⟩
      | .ErrRange => .error ⟨"ParseInt", s0, .ErrRange⟩
    | .ok un =>
      if !neg && decide (un ≥ 2 ^ 63) then .error ⟨"ParseInt", s0, .ErrRange⟩
      else if neg && decide (un > 2 ^ 63) then .error ⟨"ParseInt", s0, .ErrRange⟩
      else .ok (if neg then -(un : Int) else (un : Int))

/-- Function `strconv.Atoi` on a 64-bit platform: the value and the error kind of
`ParseInt(s, 10, 0)`, the error naming `Atoi`. -/
def Atoi (s : List Char) : Except NumError Int :=
  match ParseInt s with
  | .error e => .error ⟨"Atoi", e.Num, e.Err⟩
  | .ok n => .ok n

/-- Function `parseNumBytes`: drop every comma, then `ParseInt`. -/
def parseNumBytes (numBytes : List Char) : Except NumError Int :=
  ParseInt (numBytes.filter (fun c => c != ','))

/-! ## `float64` arithmetic

A finite `float64` is held as `±m · 2^e`.  Every operation rounds the exact
result to 53 significant bits, ties to even.  The exponent range of the format
is not modelled: the operands here come from 64-bit integers, so no result
other than a division by zero leaves the range of normal numbers.
-/

/-- A `float64` value: finite `±m · 2^e`, or not finite (`±Inf`, `NaN`). -/
inductive F64 where
  | fin (neg : Bool) (m : Nat) (e : Int)
  | nonfinite
  deriving DecidableEq, Repr

/-- Number of binary digits of `n`, computed with `fuel` halvings. -/
def bitLenAux : Nat → Nat → Nat
  | 0, _ => 0
  | fuel + 1, n => if n = 0 then 0 else bitLenAux fuel (n / 2) + 1

/-- Number of binary digits of `n`. -/
def bitLen (n : Nat) : Nat := bitLenAux n n

/-- The quotient `n / (d · 2^e)` rounded to the nearest integer, ties to even. -/
def divRoundEven (n d : Nat) (e : Int) : Nat :=
  let num := if e < 0 then n * 2 ^ (-e).toNat else n
  let den := if e < 0 then d else d * 2 ^ e.toNat
  let q := num / den
  let r := num % den
  if 2 * r > den ∨ (2 * r = den ∧ q % 2 = 1) then q + 1 else q

/-- The positive rational `n / d` (`d > 0`) rounded to 53 significant bits:
the result is `m · 2^e` with `m ≤ 2^53`. -/
def roundRatio (n d : Nat) : Nat × Int :=
  if n = 0 then (0, 0) else
    let e0 : Int := (bitLen n : Int) - (bitLen d : Int) - 53
    let num := if e0 < 0 then n * 2 ^ (-e0).toNat else n
    let den := if e0 < 0 then d else d * 2 ^ e0.toNat
    let e : Int := if num / den < 2 ^ 53 then e0 else e0 + 1
    (divRoundEven n d e, e)

/-- Conversion `float64(n)` of an integer. -/
def F64.ofInt (n : Int) : F64 :=
  let r := roundRatio n.natAbs 1
  .fin (decide (n < 0)) r.1 r.2

/-- Quotient `x / y`. -/
def F64.div : F64 → F64 → F64
  | .fin s m e, .fin t n f =>
    if n = 0 then .nonfinite
    else
      let r := roundRatio m n
      .fin (s != t) r.1 (r.2 + e - f)
  | _, _ => .nonfinite

/-- Product `x * y`. -/
def F64.mul : F64 → F64 → F64
  | .fin s m e, .fin t n f =>
    let r := roundRatio (m * n) 1
    .fin (s != t) r.1 (r.2 + e + f)
  | _, _ => .nonfinite

/-- Conversion `int64(x)`: truncation toward zero.  When the truncated value
does not fit in an `int64` the Go specification leaves the result to the
implementation; `ovf` is what the platform yields then. -/
def F64.toInt64 (ovf : F64 → Int) : F64 → Int
  | .fin s m e =>
    let a : Nat := if e < 0 then m / 2 ^ (-e).toNat else m * 2 ^ e.toNat
    let v : Int := if s then -(a : Int) else (a : Int)
    if -(2 : Int) ^ 63 ≤ v ∧ v < (2 : Int) ^ 63 then v else ovf (.fin s m e)
  | .nonfinite => ovf .nonfinite

/-- The amd64 conversion: every value out of range yields `-2^63`. -/
def amd64 : F64 → Int := fun _ => -(2 : Int) ^ 63

/-! ## Parsing one log line -/

/-- Type `progress`. -/
structure progress where
  percentage : Int
  transferred : Int
  total : Int
  deriving DecidableEq, Repr

/-- The expression `int64((float64(transferred) / float64(percentage)) * 100)`. -/
def estimateTotal (ovf : F64 → Int) (transferred percentage : Int) : Int :=
  F64.toInt64 ovf
    (F64.mul (F64.div (F64.ofInt transferred) (F64.ofInt percentage)) (F64.ofInt 100))

/-- Function `parseLogLine`.  The result `.ok none` is Go's `(nil, nil)`. -/
def parseLogLine (ovf : F64 → Int) (l : List Char) : Except NumError (Option progress) :=
  let endMatches := findNamedMatches rsyncEndRegex l
  if endMatches.length > 0 then
    match parseNumBytes (mapGet endMatches "bytes") with
    | .error err => .error err
    | .ok total => .ok (some ⟨100, total, total⟩)
  else
    let prMatches := findNamedMatches progressRegex l
    if prMatches.length = 0 then .ok none
    else
      match Atoi (mapGet prMatches "percentage") with
      | .error err => .error err
      | .ok percentage =>
        let percentage := if percentage = 0 then 1 else percentage
        match parseNumBytes (mapGet prMatches "bytes") with
        | .error err => .error err
        | .ok transferred =>
          let total := estimateTotal ovf transferred percentage
          let total := if transferred > total then transferred else total
          .ok (some ⟨percentage, transferred, total⟩)

/-- Function `getLatestProgress`: the lines are visited from the last index
down to index 0. -/
def getLatestProgress.scan (ovf : F64 → Int) :
    List (List Char) → Except NumError (Option progress)
  | [] => .ok none
  | l :: older =>
    match parseLogLine ovf l with
    | .error err => .error err
    | .ok (some pr) => .ok (some pr)
    | .ok none => getLatestProgress.scan ovf older

/-- Function `getLatestProgress`. -/
def getLatestProgress (ovf : F64 → Int) (logs : List (List Char)) :
    Except NumError (Option progress) :=
  getLatestProgress.scan ovf logs.reverse

/-! ## The progress reporter

The reporter functions loop over a `select` on the completion channel and a
one-second ticker.  Which case a `select` takes, and what the cluster and the
progress bar answer during that round, is decided outside the program; a run is
therefore driven by a list of rounds, each a `Pick` with the `Answers` of the
environment.
-/

deriving instance DecidableEq for Except

/-- A Go `error`: a parse error of `strconv`, or any other error by its message. -/
inductive GoError where
  | other (msg : String)
  | num (e : NumError)
  deriving DecidableEq, Repr

/-- What the reporter does to the outside: calls of `getLogs` (with its `since`
argument, `none` for `nil`), lines sent to `logger.Debug`, and calls on the bar. -/
inductive Effect where
  | getLogs (since : Option Nat)
  | debug (l : List Char)
  | changeMax64 (n : Int)
  | set64 (n : Int)
  | finish
  deriving DecidableEq, Repr

/-- What the environment answers during one round of the loop: the clock
(`metav1.Now()`), the result of `getLogs` (the text already split into lines),
and the result of the call on the bar (`Set64` or `Finish`), where one is made. -/
structure Answers where
  now : Nat
  logs : Except GoError (List (List Char))
  bar : Option GoError
  deriving DecidableEq

/-- The case a `select` takes: a value received from `successCh`, or a tick. -/
inductive Pick where
  | recv (success : Bool)
  | tick
  deriving DecidableEq, Repr

/-- The state of a reporter: the cursor `since`, what it has done so far (oldest
first), and its return value once it has returned (`some none` is `nil`). -/
structure Reporter where
  since : Nat
  effects : List Effect
  result : Option (Option GoError)
  deriving DecidableEq

/-- Function `logPodLogs`: fetch, then send every line to the debug log. -/
def logPodLogs (since : Nat) (a : Answers) : List Effect × Option GoError :=
  match a.logs with
  | .error err => ([.getLogs (some since)], some err)
  | .ok logs => (.getLogs (some since) :: logs.map .debug, none)

/-- One round of the loop of `tailPodLogs`. -/
def tailPodLogs.round (r : Reporter) (pick : Pick) (a : Answers) : Reporter :=
  match r.result with
  | some _ => r
  | none =>
    match pick with
    | .recv success =>
      if success then
        let res := logPodLogs r.since a
        { r with effects := r.effects ++ res.1, result := some res.2 }
      else { r with result := some none }
    | .tick =>
      let res := logPodLogs r.since a
      match res.2 with
      | some err => { r with effects := r.effects ++ res.1, result := some (some err) }
      | none => { since := a.now, effects := r.effects ++ res.1, result := none }

/-- Function `tailPodLogs`, run for the given rounds. -/
def tailPodLogs (rounds : List (Pick × Answers)) : Reporter :=
  rounds.foldl (fun r e => tailPodLogs.round r e.1 e.2) ⟨0, [], none⟩

/-- The start of `drawProgressBarFromRsyncLogs`: the probe of the logs. -/
def drawProgressBarFromRsyncLogs.start (probe : Except GoError (List (List Char))) :
    Reporter :=
  match probe with
  | .error err => ⟨0, [.getLogs none], some (some err)⟩
  | .ok _ => ⟨0, [.getLogs none], none⟩

/-- One round of the loop of `drawProgressBarFromRsyncLogs`. -/
def drawProgressBarFromRsyncLogs.round (ovf : F64 → Int) (r : Reporter) (pick : Pick)
    (a : Answers) : Reporter :=
  match r.result with
  | some _ => r
  | none =>
    match pick with
    | .recv success =>
      if success then
        match a.bar with
        | some err => { r with effects := r.effects ++ [.finish], result := some (some err) }
        | none => { r with effects := r.effects ++ [.finish], result := some none }
      else { r with result := some none }
    | .tick =>
      match a.logs with
      | .error err =>
        { r with effects := r.effects ++ [.getLogs (some r.since)], result := some (some err) }
      | .ok logs =>
        match getLatestProgress ovf logs with
        | .error err =>
          { r with effects := r.effects ++ [.getLogs (some r.since)],
                   result := some (some (.num err)) }
        | .ok none =>
          { since := a.now, effects := r.effects ++ [.getLogs (some r.since)], result := none }
        | .ok (some pr) =>
          let eff := r.effects ++
            [.getLogs (some r.since), .changeMax64 pr.total, .set64 pr.transferred]
          match a.bar with
          | some err => { r with effects := eff, result := some (some err) }
          | none =>
            if pr.percentage = 100 then { r with effects := eff, result := some none }
            else { since := a.now, effects := eff, result := none }

/-- Function `drawProgressBarFromRsyncLogs`, run for the given rounds. -/
def drawProgressBarFromRsyncLogs (ovf : F64 → Int)
    (probe : Except GoError (List (List Char))) (rounds : List (Pick × Answers)) : Reporter :=
  rounds.foldl (fun r e => drawProgressBarFromRsyncLogs.round ovf r e.1 e.2)
    (drawProgressBarFromRsyncLogs.start probe)

/-- The dispatch of `tryLogProgressFromRsyncLogs` on the log format: where the
reporter starts. -/
def tryLogProgressFromRsyncLogs.start (fancy : Bool)
    (probe : Except GoError (List (List Char))) : Reporter :=
  if fancy then drawProgressBarFromRsyncLogs.start probe else ⟨0, [], none⟩

/-- The dispatch of `tryLogProgressFromRsyncLogs` on the log format: one round. -/
def tryLogProgressFromRsyncLogs.round (fancy : Bool) (ovf : F64 → Int) (r : Reporter)
    (pick : Pick) (a : Answers) : Reporter :=
  if fancy then drawProgressBarFromRsyncLogs.round ovf r pick a
  else tailPodLogs.round r pick a

/-- Function `tryLogProgressFromRsyncLogs`, run for the given rounds: bar mode
for the log format `fancy`, plain mode otherwise. -/
def tryLogProgressFromRsyncLogs (fancy : Bool) (ovf : F64 → Int)
    (probe : Except GoError (List (List Char))) (rounds : List (Pick × Answers)) : Reporter :=
  rounds.foldl (fun r e => tryLogProgressFromRsyncLogs.round fancy ovf r e.1 e.2)
    (tryLogProgressFromRsyncLogs.start fancy probe)

/-! ## The job supervisor -/

/-- Type `corev1.PodPhase`. -/
inductive PodPhase where
  | PodPending
  | PodRunning
  | PodSucceeded
  | PodFailed
  | PodUnknown
  deriving DecidableEq, Repr

/-- The pod of the job. -/
structure Pod where
  Namespace : String
  Name : String
  deriving DecidableEq, Repr

/-- What the cluster answers to the calls of `CreateJobWaitTillCompleted`:
`Jobs.Create`, `waitUntilJobPodIsCreated`, `waitUntilPodIsScheduled` and
`waitUntilPodIsNotRunning`. -/
structure Cluster where
  create : Option GoError
  podCreated : Except GoError Pod
  scheduled : Option GoError
  notRunning : Except GoError PodPhase

/-- The end of `CreateJobWaitTillCompleted` (lines 48 to 61): the value sent on
`successCh` and the value returned, for a result of `waitUntilPodIsNotRunning`. -/
def completion (jobName : String) : Except GoError PodPhase → Bool × Option GoError
  | .error err => (false, some err)
  | .ok p =>
    if p ≠ .PodSucceeded then (false, some (.other ("job " ++ jobName ++ " failed")))
    else (true, none)

/-- What a call of `CreateJobWaitTillCompleted` has done when it returns. -/
structure JobResult where
  err : Option GoError
  reporterStarted : Bool
  sent : List Bool
  deriving DecidableEq

/-- Function `CreateJobWaitTillCompleted`, as seen from its caller: the error it
returns, whether it has started the reporter, and what it has sent on
`successCh`.  The deferred `wg.Wait()` is part of the two goroutines below. -/
def CreateJobWaitTillCompleted (jobName : String) (c : Cluster) : JobResult :=
  match c.create with
  | some err => ⟨some err, false, []⟩
  | none =>
    match c.podCreated with
    | .error err => ⟨some err, false, []⟩
    | .ok _ =>
      match c.scheduled with
      | some err => ⟨some err, false, []⟩
      | none =>
        let r := completion jobName c.notRunning
        ⟨r.2, true, [r.1]⟩

/-! ## Supervisor and reporter side by side

After `go tryLogProgressFromRsyncLogs(...)` two goroutines run.  They share
`successCh`, a channel with a buffer of one value, and the `WaitGroup` on which
the deferred `wg.Wait()` of the supervisor blocks until the reporter has
returned.  A run is a sequence of steps of either goroutine.
-/

/-- Where the supervisor stands: in `waitUntilPodIsNotRunning`, at the send on
`successCh`, in the deferred `wg.Wait()`, or returned. -/
inductive SupPc where
  | waiting
  | sending (b : Bool) (ret : Option GoError)
  | joining (ret : Option GoError)
  | returned (ret : Option GoError)
  deriving DecidableEq

/-- The two goroutines and what they share: the buffer of `successCh`, every
value sent so far, and the value the reporter has received. -/
structure Sys where
  sup : SupPc
  chan : List Bool
  sent : List Bool
  rep : Reporter
  received : Option Bool
  deriving DecidableEq

/-- The steps of a run. -/
inductive Label where
  | podWait (res : Except GoError PodPhase)
  | send
  | recv (a : Answers)
  | tick (a : Answers)
  | join

/-- One step; `none` when the step cannot be taken in this state (a send on a
full buffer, a receive from an empty one, `wg.Wait()` before `wg.Done()`). -/
def Sys.step (fancy : Bool) (ovf : F64 → Int) (jobName : String) (s : Sys) :
    Label → Option Sys
  | .podWait res =>
    match s.sup with
    | .waiting =>
      some { s with sup := .sending (completion jobName res).1 (completion jobName res).2 }
    | _ => none
  | .send =>
    match s.sup with
    | .sending b ret =>
      if s.chan.length < 1 then
        some { s with sup := .joining ret, chan := s.chan ++ [b], sent := s.sent ++ [b] }
      else none
    | _ => none
  | .recv a =>
    match s.rep.result, s.chan with
    | none, b :: rest =>
      some { s with chan := rest, received := some b,
                    rep := tryLogProgressFromRsyncLogs.round fancy ovf s.rep (.recv b) a }
    | _, _ => none
  | .tick a =>
    match s.rep.result with
    | none => some { s with rep := tryLogProgressFromRsyncLogs.round fancy ovf s.rep .tick a }
    | some _ => none
  | .join =>
    match s.sup with
    | .joining ret => if s.rep.result.isSome then some { s with sup := .returned ret } else none
    | _ => none

/-- A run from a state. -/
def Sys.exec (fancy : Bool) (ovf : F64 → Int) (jobName : String) :
    Sys → List Label → Option Sys
  | s, [] => some s
  | s, l :: ls =>
    match Sys.step fancy ovf jobName s l with
    | none => none
    | some s' => Sys.exec fancy ovf jobName s' ls

/-- The state right after `go tryLogProgressFromRsyncLogs(...)`. -/
def Sys.init (fancy : Bool) (probe : Except GoError (List (List Char))) : Sys :=
  ⟨.waiting, [], [], tryLogProgressFromRsyncLogs.start fancy probe, none⟩

/-- What holds in every state of a run: the reporter has returned once it has
received the value; nothing is sent before the supervisor is at the send, and
from then on exactly one value has been sent, which is `true` exactly when the
supervisor returns `nil`, and which is either still in the buffer or has been
received; the supervisor has returned only after the reporter. -/
def Sys.Inv (s : Sys) : Prop :=
  (s.received.isSome = true → s.rep.result.isSome = true) ∧
  match s.sup with
  | .waiting => s.sent = [] ∧ s.chan = [] ∧ s.received = none
  | .sending b ret => s.sent = [] ∧ s.chan = [] ∧ s.received = none ∧ (b = true ↔ ret = none)
  | .joining ret =>
    ∃ b, s.sent = [b] ∧ (b = true ↔ ret = none) ∧
      ((s.received = some b ∧ s.chan = []) ∨ (s.received = none ∧ s.chan = [b]))
  | .returned ret =>
    s.rep.result.isSome = true ∧
    ∃ b, s.sent = [b] ∧ (b = true ↔ ret = none) ∧
      ((s.received = some b ∧ s.chan = []) ∨ (s.received = none ∧ s.chan = [b]))

/-! ## Reading decimal numbers -/

/-- The number a string of decimal digits denotes. -/
def decimal (s : List Char) : Nat :=
  s.foldl (fun n c => n * 10 + (c.toNat - 48)) 0

/-- A byte count as rsync prints it: a first group of digits `g` and further
groups `gs`, each introduced by a comma. -/
def byteCount (g : List Char) (gs : List (List Char)) : List Char :=
  g ++ (gs.map (fun x => ',' :: x)).flatten

/-- A non-empty run of decimal digits. -/
def IsDigits (s : List Char) : Prop :=
  s ≠ [] ∧ ∀ c ∈ s, isDigit c = true

instance (s : List Char) : Decidable (IsDigits s) := by
  unfold IsDigits
  infer_instance

/-- The text `t` that follows a byte count does not continue it: it starts
neither with a digit nor with a comma and a digit. -/
def EndsNumber (t : List Char) : Prop :=
  (∀ c t', t = c :: t' → isDigit c = false) ∧
  (∀ c t', t = ',' :: c :: t' → isDigit c = false)

/-- The text `t` does not begin with a character of the class `p`. -/
def Stops (p : Char → Bool) (t : List Char) : Prop :=
  ∀ c t', t = c :: t' → p c = false

/-- The text `s` begins with an in-progress record: optional whitespace, a byte
count, at least one whitespace character, one to three digits, `%`. -/
def BeginsWithProgress (s : List Char) : Prop :=
  ∃ (ws g : List Char) (gs : List (List Char)) (ws1 ps post : List Char),
    (∀ c ∈ ws, isSpace c = true) ∧ IsDigits g ∧ (∀ x ∈ gs, IsDigits x) ∧
    (ws1 ≠ [] ∧ ∀ c ∈ ws1, isSpace c = true) ∧ IsDigits ps ∧ ps.length ≤ 3 ∧
    s = ws ++ (byteCount g gs ++ (ws1 ++ (ps ++ '%' :: post)))

/-- The line contains `total size is ` in front of a digit. -/
def HasTerminalSummary (line : List Char) : Prop :=
  ∃ (a : List Char) (d : Char) (b : List Char),
    isDigit d = true ∧ line = a ++ ("total size is ".toList ++ d :: b)

/-- The data model of the specification: a percentage in `[0, 100]`,
non-negative byte counts, and `transferred ≤ total`. -/
def WellFormedSnapshot (p : progress) : Prop :=
  0 ≤ p.percentage ∧ p.percentage ≤ 100 ∧ 0 ≤ p.transferred ∧ 0 ≤ p.total ∧
    p.transferred ≤ p.total

/-- The estimate in the words of the specification, in exact arithmetic:
`T / P × 100` truncated to an integer. -/
def specEstimate (T P : Int) : Int :=
  Int.floor ((T : ℚ) / (P : ℚ) * 100)

/-! ## First outcomes of the backtracking search -/

theorem run_seq (a b : Regex) (st : MState) :
    (Regex.seq a b).run st = (a.run st).flatMap (fun st' => b.run st') := by
  rw [Regex.run]

theorem run_star (a : Regex) (st : MState) :
    (Regex.star a).run st = starLoop (fun st' => a.run st') st.1.length st := by
  rw [Regex.run]

theorem run_opt (a : Regex) (st : MState) :
    (Regex.opt a).run st = a.run st ++ [st] := by
  rw [Regex.run]

theorem run_group (i : Nat) (a : Regex) (st : MState) :
    (Regex.group i a).run st = (a.run st).map
      (fun st' => (st'.1, (i, st.1.take (st.1.length - st'.1.length)) :: st'.2)) := by
  rw [Regex.run]

theorem run_plus (a : Regex) (st : MState) :
    (Regex.plus a).run st = (a.run st).flatMap (fun st' => (Regex.star a).run st') := by
  rw [Regex.plus, run_seq]

theorem head?_flatMap_of_head? {α β : Type} {l : List α} {f : α → List β} {x : α} {y : β}
    (hl : l.head? = some x) (hf : (f x).head? = some y) :
    (l.flatMap f).head? = some y := by
  obtain ⟨l', rfl⟩ := List.head?_eq_some_iff.mp hl
  simp [hf]

theorem head?_filter_of_head? {α : Type} {l : List α} {p : α → Bool} {x : α}
    (hl : l.head? = some x) (hp : p x = true) :
    (l.filter p).head? = some x := by
  obtain ⟨l', rfl⟩ := List.head?_eq_some_iff.mp hl
  simp [List.filter_cons, hp]

theorem head?_append_of_head? {α : Type} {l l' : List α} {x : α}
    (hl : l.head? = some x) : (l ++ l').head? = some x := by
  simp [hl]

theorem not_isDigit_of_isSpace {c : Char} (h : isSpace c = true) : isDigit c = false := by
  simp only [isSpace, Bool.or_eq_true, beq_iff_eq] at h
  rcases h with (((h | h) | h) | h) | h <;> subst h <;> decide

theorem isDigit_ne_comma {c : Char} (h : isDigit c = true) : c ≠ ',' := by
  rintro rfl
  revert h
  decide

theorem run_cls_stops {p : Char → Bool} {t : List Char} (ht : Stops p t) (k : Caps) :
    (Regex.cls p).run (t, k) = [] := by
  cases t with
  | nil => simp [Regex.run]
  | cons c t' => simp [Regex.run, ht c t' rfl]

/-- Greedy `p*` on a run `w` of `p`-characters followed by `t`: the first
outcome has read all of `w`. -/
theorem starLoop_cls_head {p : Char → Bool} {t : List Char} (ht : Stops p t) (k : Caps) :
    ∀ (w : List Char) (fuel : Nat), w.length ≤ fuel → (∀ c ∈ w, p c = true) →
      (starLoop (fun st' => (Regex.cls p).run st') fuel (w ++ t, k)).head? = some (t, k) := by
  intro w
  induction w with
  | nil =>
    intro fuel _ _
    cases fuel with
    | zero => simp [starLoop]
    | succ f => simp [starLoop, run_cls_stops ht]
  | cons c w ih =>
    intro fuel hfuel hw
    cases fuel with
    | zero => simp at hfuel
    | succ f =>
      have hc : p c = true := hw c (List.mem_cons_self _ _)
      have ih' := ih f (by simpa using hfuel) (fun x hx => hw x (List.mem_cons_of_mem _ hx))
      simp [starLoop, Regex.run, hc, ih']

theorem run_star_cls_head {p : Char → Bool} {w t : List Char} (ht : Stops p t)
    (hw : ∀ c ∈ w, p c = true) (k : Caps) :
    ((Regex.star (.cls p)).run (w ++ t, k)).head? = some (t, k) := by
  simp only [Regex.run]
  exact starLoop_cls_head ht k w _ (by simp) hw

theorem run_plus_cls_head {p : Char → Bool} {w t : List Char} (ht : Stops p t)
    (hne : w ≠ []) (hw : ∀ c ∈ w, p c = true) (k : Caps) :
    ((Regex.plus (.cls p)).run (w ++ t, k)).head? = some (t, k) := by
  cases w with
  | nil => exact absurd rfl hne
  | cons c w =>
    have hc : p c = true := hw c (List.mem_cons_self _ _)
    have h := run_star_cls_head ht (fun x hx => hw x (List.mem_cons_of_mem _ hx)) k
    simp only [Regex.run] at h
    simpa [Regex.plus, Regex.run, hc] using h

theorem run_chr_cons (c : Char) (t : List Char) (k : Caps) :
    (Regex.chr c).run (c :: t, k) = [(t, k)] := by
  simp [Regex.chr, Regex.run]

theorem run_lit (l t : List Char) (k : Caps) :
    (Regex.lit l).run (l ++ t, k) = [(t, k)] := by
  induction l with
  | nil => cases t <;> simp [Regex.lit, Regex.run]
  | cons c cs ih =>
    cases cs with
    | nil => simp [Regex.lit, run_chr_cons]
    | cons d ds =>
      simp only [Regex.lit, Regex.run, List.cons_append, run_chr_cons, List.flatMap_cons,
        List.flatMap_nil, List.append_nil]
      simpa [Regex.lit] using ih

theorem stops_digit_groups (gs : List (List Char)) {t : List Char} (ht : EndsNumber t) :
    Stops isDigit ((gs.map (fun x => ',' :: x)).flatten ++ t) := by
  intro c t' h
  cases gs with
  | nil => exact ht.1 c t' (by simpa using h)
  | cons x gs =>
    simp only [List.map_cons, List.flatten_cons, List.cons_append, List.cons.injEq] at h
    rw [← h.1]
    decide

theorem run_commaGroup_stop (i : Nat) {t : List Char} (ht : EndsNumber t) (k : Caps) :
    (commaGroup i).run (t, k) = [] := by
  cases t with
  | nil => simp [commaGroup, Regex.run, Regex.chr]
  | cons c t' =>
    by_cases hc : c = ','
    · subst hc
      cases t' with
      | nil => simp [commaGroup, Regex.run, Regex.chr, Regex.plus]
      | cons c' t'' =>
        have h := ht.2 c' t'' rfl
        simp [commaGroup, Regex.run, Regex.chr, Regex.plus, h]
    · simp [commaGroup, Regex.run, Regex.chr, hc]

theorem run_commaGroup_head (i : Nat) {x t : List Char} (hx : IsDigits x)
    (ht : Stops isDigit t) (k : Caps) :
    ((commaGroup i).run (',' :: x ++ t, k)).head? = some (t, (i, ',' :: x) :: k) := by
  have h1 : ((Regex.seq (Regex.chr ',') (Regex.plus (.cls isDigit))).run
      (',' :: x ++ t, k)).head? = some (t, k) := by
    rw [run_seq]
    simp only [List.cons_append, run_chr_cons, List.flatMap_cons,
      List.flatMap_nil, List.append_nil]
    exact run_plus_cls_head ht hx.1 hx.2 k
  rw [commaGroup, run_group, List.head?_map, h1]
  have hlen : (',' :: x ++ t).length - t.length = (',' :: x).length := by
    simp only [List.length_append]
    omega
  simp only [Option.map_some', hlen]
  rw [List.take_left]

theorem starLoop_commaGroup_head (i : Nat) {t : List Char} (ht : EndsNumber t) :
    ∀ (gs : List (List Char)) (fuel : Nat) (k : Caps), gs.length ≤ fuel →
      (∀ x ∈ gs, IsDigits x) →
      ∃ k', (starLoop (fun st' => (commaGroup i).run st') fuel
        ((gs.map (fun x => ',' :: x)).flatten ++ t, k)).head? = some (t, k') := by
  intro gs
  induction gs with
  | nil =>
    intro fuel k _ _
    refine ⟨k, ?_⟩
    cases fuel with
    | zero => simp [starLoop]
    | succ f => simp [starLoop, run_commaGroup_stop i ht]
  | cons x gs ih =>
    intro fuel k hfuel hgs
    cases fuel with
    | zero => simp at hfuel
    | succ f =>
      have hx : IsDigits x := hgs x (List.mem_cons_self _ _)
      obtain ⟨k', hk'⟩ := ih f ((i, ',' :: x) :: k) (by simpa using hfuel)
        (fun y hy => hgs y (List.mem_cons_of_mem _ hy))
      refine ⟨k', ?_⟩
      have hstep := run_commaGroup_head i hx (stops_digit_groups gs ht) k
      simp only [starLoop, List.map_cons, List.flatten_cons, List.append_assoc]
      apply head?_append_of_head?
      refine head?_flatMap_of_head? (head?_filter_of_head? hstep ?_) hk'
      simp only [List.length_append, List.length_cons, decide_eq_true_eq]
      omega

theorem length_le_flatten_groups (gs : List (List Char)) :
    gs.length ≤ ((gs.map (fun x => ',' :: x)).flatten).length := by
  induction gs with
  | nil => simp
  | cons x gs ih =>
    simp only [List.map_cons, List.flatten_cons, List.length_append, List.length_cons]
    omega

/-- On a byte count followed by text that does not continue it, the first
outcome of `[0-9]+(,[0-9]+)*` has read the whole byte count. -/
theorem run_bytesRe_head (i : Nat) {g : List Char} {gs : List (List Char)} {t : List Char}
    (hg : IsDigits g) (hgs : ∀ x ∈ gs, IsDigits x) (ht : EndsNumber t) (k : Caps) :
    ∃ k', ((bytesRe i).run (byteCount g gs ++ t, k)).head? = some (t, k') := by
  have h1 := run_plus_cls_head (stops_digit_groups gs ht) hg.1 hg.2 k
  obtain ⟨k', h2⟩ := starLoop_commaGroup_head i ht gs
    ((gs.map (fun x => ',' :: x)).flatten ++ t).length k
    (by have := length_le_flatten_groups gs; simp only [List.length_append]; omega) hgs
  refine ⟨k', ?_⟩
  simp only [bytesRe, byteCount, List.append_assoc]
  rw [run_seq]
  refine head?_flatMap_of_head? h1 ?_
  rw [run_star]
  exact h2

/-- The capture of group `i` around `[0-9]+(,[0-9]+)*` is the byte count. -/
theorem run_group_bytesRe_head (i j : Nat) {g : List Char} {gs : List (List Char)}
    {t : List Char} (hg : IsDigits g) (hgs : ∀ x ∈ gs, IsDigits x) (ht : EndsNumber t)
    (k : Caps) :
    ∃ k', ((Regex.group i (bytesRe j)).run (byteCount g gs ++ t, k)).head? =
      some (t, (i, byteCount g gs) :: k') := by
  obtain ⟨k', h⟩ := run_bytesRe_head j hg hgs ht k
  refine ⟨k', ?_⟩
  rw [run_group, List.head?_map, h]
  have hlen : (byteCount g gs ++ t).length - t.length = (byteCount g gs).length := by
    simp only [List.length_append]
    omega
  simp only [Option.map_some', hlen]
  rw [List.take_left]

theorem not_isSpace_of_isDigit {c : Char} (h : isDigit c = true) : isSpace c = false := by
  cases hs : isSpace c with
  | false => rfl
  | true => rw [not_isDigit_of_isSpace hs] at h; exact absurd h (by decide)

theorem stops_space_of_digits {s t : List Char} (hs : IsDigits s) : Stops isSpace (s ++ t) := by
  intro c t' h
  cases s with
  | nil => exact absurd rfl hs.1
  | cons a s =>
    simp only [List.cons_append, List.cons.injEq] at h
    rw [← h.1]
    exact not_isSpace_of_isDigit (hs.2 a (List.mem_cons_self _ _))

theorem endsNumber_of_space {s t : List Char} (hne : s ≠ []) (hs : ∀ c ∈ s, isSpace c = true) :
    EndsNumber (s ++ t) := by
  cases s with
  | nil => exact absurd rfl hne
  | cons a s =>
    have ha : isSpace a = true := hs a (List.mem_cons_self _ _)
    constructor
    · intro c t' h
      simp only [List.cons_append, List.cons.injEq] at h
      rw [← h.1]
      exact not_isDigit_of_isSpace ha
    · intro c t' h
      simp only [List.cons_append, List.cons.injEq] at h
      rw [h.1] at ha
      exact absurd ha (by decide)

/-- On one to three digits followed by a non-digit, the first outcome of
`[0-9]{1,3}` has read all the digits. -/
theorem run_pctRe_head {ps t : List Char} (hps : IsDigits ps) (hlen : ps.length ≤ 3)
    (ht : Stops isDigit t) (k : Caps) :
    (pctRe.run (ps ++ t, k)).head? = some (t, k) := by
  obtain ⟨hne, hd⟩ := hps
  match ps, hne, hd, hlen with
  | [a], _, hd, _ =>
    have ha : isDigit a = true := hd a (by simp)
    simp [pctRe, Regex.run, ha, run_cls_stops ht]
  | [a, b], _, hd, _ =>
    have ha : isDigit a = true := hd a (by simp)
    have hb : isDigit b = true := hd b (by simp)
    simp [pctRe, Regex.run, ha, hb, run_cls_stops ht]
  | [a, b, c], _, hd, _ =>
    have ha : isDigit a = true := hd a (by simp)
    have hb : isDigit b = true := hd b (by simp)
    have hc : isDigit c = true := hd c (by simp)
    simp [pctRe, Regex.run, ha, hb, hc]
  | _ :: _ :: _ :: _ :: _, _, _, hlen => simp at hlen

/-- The first outcome of the in-progress pattern on a line that begins with
`whitespace, byte count, whitespace, percentage, %`. -/
theorem run_progressRegex_head {ws g : List Char} {gs : List (List Char)}
    {ws1 ps : List Char} (post : List Char)
    (hws : ∀ c ∈ ws, isSpace c = true) (hg : IsDigits g) (hgs : ∀ x ∈ gs, IsDigits x)
    (hws1 : ws1 ≠ [] ∧ ∀ c ∈ ws1, isSpace c = true)
    (hps : IsDigits ps) (hlen : ps.length ≤ 3) :
    ∃ k', (progressRegex.re.run
      (ws ++ (byteCount g gs ++ (ws1 ++ (ps ++ '%' :: post))), [])).head? =
        some (post, (3, ps) :: (1, byteCount g gs) :: k') := by
  obtain ⟨k', h1⟩ := run_group_bytesRe_head 1 2 hg hgs
    (endsNumber_of_space hws1.1 hws1.2 (t := ps ++ '%' :: post)) []
  refine ⟨k', ?_⟩
  have hstop : Stops isSpace (byteCount g gs ++ (ws1 ++ (ps ++ '%' :: post))) := by
    rw [byteCount, List.append_assoc]
    exact stops_space_of_digits hg
  have h0 := run_star_cls_head hstop hws []
  have h2 := run_plus_cls_head (stops_space_of_digits (t := '%' :: post) hps) hws1.1 hws1.2
    ((1, byteCount g gs) :: k')
  have hpct : Stops isDigit ('%' :: post) := by
    intro c t' h
    simp only [List.cons.injEq] at h
    rw [← h.1]
    decide
  have h3 : ((Regex.group 3 pctRe).run (ps ++ '%' :: post, (1, byteCount g gs) :: k')).head? =
      some ('%' :: post, (3, ps) :: (1, byteCount g gs) :: k') := by
    rw [run_group, List.head?_map, run_pctRe_head hps hlen hpct]
    have hl : (ps ++ '%' :: post).length - ('%' :: post).length = ps.length := by
      simp only [List.length_append]
      omega
    simp only [Option.map_some', hl]
    rw [List.take_left]
  simp only [progressRegex]
  rw [run_seq]
  refine head?_flatMap_of_head? h0 ?_
  rw [run_seq]
  refine head?_flatMap_of_head? h1 ?_
  rw [run_seq]
  refine head?_flatMap_of_head? h2 ?_
  rw [run_seq]
  refine head?_flatMap_of_head? h3 ?_
  rw [run_chr_cons]
  rfl

/-- The first outcome of the terminal pattern on a line that begins with
`whitespace, "total size is ", byte count`. -/
theorem run_rsyncEndRegex_head {ws g : List Char} {gs : List (List Char)} {post : List Char}
    (hws : ∀ c ∈ ws, isSpace c = true) (hg : IsDigits g) (hgs : ∀ x ∈ gs, IsDigits x)
    (hpost : EndsNumber post) :
    ∃ k', (rsyncEndRegex.re.run
      (ws ++ ("total size is ".toList ++ (byteCount g gs ++ post)), [])).head? =
        some (post, (1, byteCount g gs) :: k') := by
  obtain ⟨k', h1⟩ := run_group_bytesRe_head 1 2 hg hgs hpost []
  refine ⟨k', ?_⟩
  have hstop : Stops isSpace ("total size is ".toList ++ (byteCount g gs ++ post)) := by
    intro c t' h
    simp only [String.toList, List.cons_append, List.cons.injEq] at h
    rw [← h.1]
    decide
  have h0 := run_star_cls_head hstop hws []
  simp only [rsyncEndRegex]
  rw [run_seq]
  refine head?_flatMap_of_head? h0 ?_
  rw [run_seq, run_lit]
  simpa using h1

/-! ## From the search to the map of named matches -/

theorem FindStringSubmatch_of_matchAt {r : Regexp} {s : List Char} {m : List (List Char)}
    (h : matchAt r s = some m) : FindStringSubmatch r s = some m := by
  cases s <;> simp [FindStringSubmatch, h]

/-- Start positions at which the anchored attempt fails are skipped. -/
theorem FindStringSubmatch_skip (r : Regexp) (s : List Char) :
    ∀ pre : List Char, (∀ j, j < pre.length → matchAt r ((pre ++ s).drop j) = none) →
      FindStringSubmatch r (pre ++ s) = FindStringSubmatch r s := by
  intro pre
  induction pre with
  | nil => intro _; rfl
  | cons c pre ih =>
    intro h
    have h0 := h 0 (by simp)
    simp only [List.drop_zero] at h0
    rw [List.cons_append] at h0 ⊢
    rw [FindStringSubmatch, h0]
    apply ih
    intro j hj
    have := h (j + 1) (by simpa using hj)
    simpa using this

theorem findNamedMatches_progress {line w b x p : List Char}
    (h : FindStringSubmatch progressRegex line = some [w, b, x, p]) :
    findNamedMatches progressRegex line = [("percentage", p), ("", x), ("bytes", b)] := by
  rw [findNamedMatches, h]
  simp [progressRegex, mapSet]

theorem findNamedMatches_rsyncEnd {line w b x : List Char}
    (h : FindStringSubmatch rsyncEndRegex line = some [w, b, x]) :
    findNamedMatches rsyncEndRegex line = [("", x), ("bytes", b)] := by
  rw [findNamedMatches, h]
  simp [rsyncEndRegex, mapSet]

theorem matchAt_progress {s : List Char} {st : MState}
    (h : (progressRegex.re.run (s, [])).head? = some st) :
    matchAt progressRegex s = some [s.take (s.length - st.1.length),
      capGet st.2 1, capGet st.2 2, capGet st.2 3] := by
  rw [matchAt, h]
  simp [progressRegex, List.range, List.range.loop]

theorem matchAt_rsyncEnd {s : List Char} {st : MState}
    (h : (rsyncEndRegex.re.run (s, [])).head? = some st) :
    matchAt rsyncEndRegex s = some [s.take (s.length - st.1.length),
      capGet st.2 1, capGet st.2 2] := by
  rw [matchAt, h]
  simp [rsyncEndRegex, List.range, List.range.loop]

/-! ## `strconv` on strings of digits -/

theorem digit_val_le {c : Char} (h : isDigit c = true) : c.toNat - 48 ≤ 9 := by
  simp only [isDigit, Bool.and_eq_true, decide_eq_true_eq] at h
  omega

theorem foldl_digits_ge (ds : List Char) :
    ∀ n : Nat, n ≤ ds.foldl (fun n c => n * 10 + (c.toNat - 48)) n := by
  induction ds with
  | nil => intro n; simp
  | cons c ds ih =>
    intro n
    simp only [List.foldl_cons]
    have := ih (n * 10 + (c.toNat - 48))
    omega

theorem foldl_digits_lt (ds : List Char) (hd : ∀ c ∈ ds, isDigit c = true) :
    ∀ n : Nat, ds.foldl (fun n c => n * 10 + (c.toNat - 48)) n < (n + 1) * 10 ^ ds.length := by
  induction ds with
  | nil => intro n; simp
  | cons c ds ih =>
    intro n
    simp only [List.foldl_cons, List.length_cons]
    have h1 := ih (fun x hx => hd x (List.mem_cons_of_mem _ hx)) (n * 10 + (c.toNat - 48))
    have h2 := digit_val_le (hd c (List.mem_cons_self _ _))
    have h3 : (n * 10 + (c.toNat - 48) + 1) * 10 ^ ds.length ≤ ((n + 1) * 10) * 10 ^ ds.length :=
      Nat.mul_le_mul_right _ (by omega)
    calc _ < _ := h1
      _ ≤ _ := h3
      _ = (n + 1) * 10 ^ (ds.length + 1) := by rw [pow_succ]; ring

theorem decimal_lt_pow {ds : List Char} (hd : ∀ c ∈ ds, isDigit c = true) :
    decimal ds < 10 ^ ds.length := by
  have := foldl_digits_lt ds hd 0
  simpa [decimal] using this

/-- The digit loop of `ParseUint` on digits: the value if it fits 64 bits, a
range error otherwise. -/
theorem parseUintLoop_digits (s0 ds : List Char) (hd : ∀ c ∈ ds, isDigit c = true) :
    ∀ n : Nat, n < 2 ^ 64 →
      parseUintLoop s0 n ds =
        if ds.foldl (fun n c => n * 10 + (c.toNat - 48)) n < 2 ^ 64
        then .ok (ds.foldl (fun n c => n * 10 + (c.toNat - 48)) n)
        else .error ⟨"ParseUint", s0, .ErrRange⟩ := by
  induction ds with
  | nil =>
    intro n hn
    norm_num only at hn
    simp [parseUintLoop, hn]
  | cons c ds ih =>
    intro n hn
    have hc : isDigit c = true := hd c (List.mem_cons_self _ _)
    have hd9 := digit_val_le hc
    have hge := foldl_digits_ge ds (n * 10 + (c.toNat - 48))
    have ih' := ih (fun x hx => hd x (List.mem_cons_of_mem _ hx))
    simp only [parseUintLoop, hc, if_true, List.foldl_cons]
    norm_num only at hn hge ⊢
    by_cases h1 : 1844674407370955162 ≤ n
    · rw [if_pos h1, if_neg (by omega)]
    · rw [if_neg h1]
      by_cases h2 : n * 10 + (c.toNat - 48) < 18446744073709551616
      · have hmod : (n * 10 + (c.toNat - 48)) % 18446744073709551616 =
            n * 10 + (c.toNat - 48) := Nat.mod_eq_of_lt h2
        rw [hmod, if_neg (by omega)]
        have := ih' (n * 10 + (c.toNat - 48)) (by norm_num only; exact h2)
        norm_num only at this
        exact this
      · rw [if_pos (by omega), if_neg (by omega)]

theorem ParseUint_digits {ds : List Char} (hds : IsDigits ds) :
    ParseUint ds =
      if decimal ds < 2 ^ 64 then .ok (decimal ds)
      else .error ⟨"ParseUint", ds, .ErrRange⟩ := by
  rw [ParseUint, if_neg hds.1, parseUintLoop_digits ds ds hds.2 0 (by norm_num)]
  rfl

/-- Function `ParseInt` on digits: the value if it is below `2^63`, a range error otherwise. -/
theorem ParseInt_digits {ds : List Char} (hds : IsDigits ds) :
    ParseInt ds =
      if decimal ds < 2 ^ 63 then .ok (decimal ds : Int)
      else .error ⟨"ParseInt", ds, .ErrRange⟩ := by
  obtain ⟨hne, hd⟩ := hds
  cases ds with
  | nil => exact absurd rfl hne
  | cons c cs =>
    have hc : isDigit c = true := hd c (List.mem_cons_self _ _)
    have hplus : (c == '+') = false := by
      cases h : c == '+' with
      | false => rfl
      | true => rw [beq_iff_eq] at h; subst h; exact absurd hc (by decide)
    have hminus : (c == '-') = false := by
      cases h : c == '-' with
      | false => rfl
      | true => rw [beq_iff_eq] at h; subst h; exact absurd hc (by decide)
    simp only [ParseInt, hplus, hminus, Bool.or_self, Bool.false_eq_true, if_false,
      ParseUint_digits ⟨hne, hd⟩]
    generalize decimal (c :: cs) = v
    norm_num only
    by_cases h64 : v < 18446744073709551616
    · by_cases h63 : v < 9223372036854775808
      · simp [h64, h63]
      · simp [h64, h63]
    · have h63 : ¬ v < 9223372036854775808 := by omega
      simp [h64, h63]

/-! ## Every outcome of the search has the shape of the pattern -/

theorem mem_run_cls {p : Char → Bool} {st st' : MState} (h : st' ∈ (Regex.cls p).run st) :
    ∃ c, p c = true ∧ st.1 = c :: st'.1 ∧ st'.2 = st.2 := by
  obtain ⟨s, k⟩ := st
  cases s with
  | nil => simp [Regex.run] at h
  | cons c cs =>
    by_cases hc : p c = true
    · simp only [Regex.run, hc, if_true, List.mem_singleton] at h
      subst h
      exact ⟨c, hc, rfl, rfl⟩
    · simp [Regex.run, hc] at h

theorem mem_starLoop_cls {p : Char → Bool} :
    ∀ (fuel : Nat) (st st' : MState),
      st' ∈ starLoop (fun x => (Regex.cls p).run x) fuel st →
      ∃ w, (∀ c ∈ w, p c = true) ∧ st.1 = w ++ st'.1 ∧ st'.2 = st.2 := by
  intro fuel
  induction fuel with
  | zero =>
    intro st st' h
    simp only [starLoop, List.mem_singleton] at h
    subst h
    exact ⟨[], by simp, rfl, rfl⟩
  | succ f ih =>
    intro st st' h
    simp only [starLoop, List.mem_append, List.mem_flatMap, List.mem_filter,
      List.mem_singleton] at h
    rcases h with ⟨mid, ⟨hmid, _⟩, hrest⟩ | h
    · obtain ⟨c, hc, h1, h2⟩ := mem_run_cls hmid
      obtain ⟨w, hw, h3, h4⟩ := ih mid st' hrest
      refine ⟨c :: w, ?_, ?_, ?_⟩
      · intro x hx
        rcases List.mem_cons.mp hx with rfl | hx
        · exact hc
        · exact hw x hx
      · rw [h1, h3]; rfl
      · rw [h4, h2]
    · subst h
      exact ⟨[], by simp, rfl, rfl⟩

theorem mem_run_star_cls {p : Char → Bool} {st st' : MState}
    (h : st' ∈ (Regex.star (.cls p)).run st) :
    ∃ w, (∀ c ∈ w, p c = true) ∧ st.1 = w ++ st'.1 ∧ st'.2 = st.2 := by
  rw [run_star] at h
  exact mem_starLoop_cls _ st st' h

theorem mem_run_plus_cls {p : Char → Bool} {st st' : MState}
    (h : st' ∈ (Regex.plus (.cls p)).run st) :
    ∃ w, w ≠ [] ∧ (∀ c ∈ w, p c = true) ∧ st.1 = w ++ st'.1 ∧ st'.2 = st.2 := by
  rw [run_plus, List.mem_flatMap] at h
  obtain ⟨mid, hmid, hrest⟩ := h
  obtain ⟨c, hc, h1, h2⟩ := mem_run_cls hmid
  obtain ⟨w, hw, h3, h4⟩ := mem_run_star_cls hrest
  refine ⟨c :: w, by simp, ?_, ?_, ?_⟩
  · intro x hx
    rcases List.mem_cons.mp hx with rfl | hx
    · exact hc
    · exact hw x hx
  · rw [h1, h3]; rfl
  · rw [h4, h2]

theorem mem_run_chr {c : Char} {st st' : MState} (h : st' ∈ (Regex.chr c).run st) :
    st.1 = c :: st'.1 ∧ st'.2 = st.2 := by
  obtain ⟨d, hd, h1, h2⟩ := mem_run_cls h
  rw [beq_iff_eq] at hd
  subst hd
  exact ⟨h1, h2⟩

theorem mem_run_lit (l : List Char) :
    ∀ {st st' : MState}, st' ∈ (Regex.lit l).run st → st.1 = l ++ st'.1 ∧ st'.2 = st.2 := by
  induction l with
  | nil =>
    intro st st' h
    rw [Regex.lit, run_opt, List.mem_append] at h
    rcases h with h | h
    · obtain ⟨c, hc, _⟩ := mem_run_cls h
      exact absurd hc (by simp)
    · rw [List.mem_singleton] at h
      subst h
      exact ⟨rfl, rfl⟩
  | cons c cs ih =>
    intro st st' h
    cases cs with
    | nil =>
      rw [Regex.lit] at h
      exact mem_run_chr h
    | cons d ds =>
      simp only [Regex.lit, run_seq, List.mem_flatMap] at h
      obtain ⟨mid, hmid, hrest⟩ := h
      obtain ⟨h1, h2⟩ := mem_run_chr hmid
      obtain ⟨h3, h4⟩ := ih hrest
      exact ⟨by rw [h1, h3]; rfl, by rw [h4, h2]⟩

theorem mem_run_commaGroup {i : Nat} {st st' : MState} (h : st' ∈ (commaGroup i).run st) :
    ∃ x, IsDigits x ∧ st.1 = ',' :: x ++ st'.1 := by
  rw [commaGroup, run_group, List.mem_map] at h
  obtain ⟨st2, hst2, rfl⟩ := h
  rw [run_seq, List.mem_flatMap] at hst2
  obtain ⟨mid, hmid, hrest⟩ := hst2
  obtain ⟨h1, _⟩ := mem_run_chr hmid
  obtain ⟨w, hne, hw, h3, _⟩ := mem_run_plus_cls hrest
  exact ⟨w, ⟨hne, hw⟩, by rw [h1, h3]; rfl⟩

theorem mem_starLoop_commaGroup {i : Nat} :
    ∀ (fuel : Nat) (st st' : MState),
      st' ∈ starLoop (fun x => (commaGroup i).run x) fuel st →
      ∃ gs : List (List Char), (∀ x ∈ gs, IsDigits x) ∧
        st.1 = (gs.map (fun x => ',' :: x)).flatten ++ st'.1 := by
  intro fuel
  induction fuel with
  | zero =>
    intro st st' h
    simp only [starLoop, List.mem_singleton] at h
    subst h
    exact ⟨[], by simp, rfl⟩
  | succ f ih =>
    intro st st' h
    simp only [starLoop, List.mem_append, List.mem_flatMap, List.mem_filter,
      List.mem_singleton] at h
    rcases h with ⟨mid, ⟨hmid, _⟩, hrest⟩ | h
    · obtain ⟨x, hx, h1⟩ := mem_run_commaGroup hmid
      obtain ⟨gs, hgs, h3⟩ := ih mid st' hrest
      refine ⟨x :: gs, ?_, ?_⟩
      · intro y hy
        rcases List.mem_cons.mp hy with rfl | hy
        · exact hx
        · exact hgs y hy
      · rw [h1, h3]
        simp
    · subst h
      exact ⟨[], by simp, rfl⟩

/-- Whatever `[0-9]+(,[0-9]+)*` reads is a byte count. -/
theorem mem_run_bytesRe {i : Nat} {st st' : MState} (h : st' ∈ (bytesRe i).run st) :
    ∃ g gs, IsDigits g ∧ (∀ x ∈ gs, IsDigits x) ∧ st.1 = byteCount g gs ++ st'.1 := by
  rw [bytesRe, run_seq, List.mem_flatMap] at h
  obtain ⟨mid, hmid, hrest⟩ := h
  obtain ⟨g, hne, hg, h1, _⟩ := mem_run_plus_cls hmid
  rw [run_star] at hrest
  obtain ⟨gs, hgs, h2⟩ := mem_starLoop_commaGroup _ mid st' hrest
  exact ⟨g, gs, ⟨hne, hg⟩, hgs, by rw [h1, h2, byteCount, List.append_assoc]⟩

theorem mem_run_group {i : Nat} {a : Regex} {st st' : MState}
    (h : st' ∈ (Regex.group i a).run st) :
    ∃ st2, st2 ∈ a.run st ∧
      st' = (st2.1, (i, st.1.take (st.1.length - st2.1.length)) :: st2.2) := by
  rw [run_group, List.mem_map] at h
  obtain ⟨st2, hst2, rfl⟩ := h
  exact ⟨st2, hst2, rfl⟩

theorem take_diff_append (w t : List Char) :
    (w ++ t).take ((w ++ t).length - t.length) = w := by
  have hlen : (w ++ t).length - t.length = w.length := by
    rw [List.length_append]
    omega
  rw [hlen, List.take_left]

/-- Whatever `[0-9]{1,3}` reads is one to three digits. -/
theorem mem_run_pctRe {st st' : MState} (h : st' ∈ pctRe.run st) :
    ∃ ps, IsDigits ps ∧ ps.length ≤ 3 ∧ st.1 = ps ++ st'.1 ∧ st'.2 = st.2 := by
  rw [pctRe, run_seq, List.mem_flatMap] at h
  obtain ⟨m1, hm1, h⟩ := h
  obtain ⟨a, ha, h1, k1⟩ := mem_run_cls hm1
  rw [run_opt, List.mem_append, List.mem_singleton] at h
  rcases h with h | rfl
  · rw [run_seq, List.mem_flatMap] at h
    obtain ⟨m2, hm2, h⟩ := h
    obtain ⟨b, hb, h2, k2⟩ := mem_run_cls hm2
    rw [run_opt, List.mem_append, List.mem_singleton] at h
    rcases h with h | rfl
    · obtain ⟨c, hc, h3, k3⟩ := mem_run_cls h
      refine ⟨[a, b, c], ⟨by simp, ?_⟩, by simp, by rw [h1, h2, h3]; rfl, by rw [k3, k2, k1]⟩
      intro x hx
      simp only [List.mem_cons, List.mem_singleton, List.not_mem_nil, or_false] at hx
      rcases hx with rfl | rfl | rfl <;> assumption
    · refine ⟨[a, b], ⟨by simp, ?_⟩, by simp, by rw [h1, h2]; rfl, by rw [k2, k1]⟩
      intro x hx
      simp only [List.mem_cons, List.mem_singleton, List.not_mem_nil, or_false] at hx
      rcases hx with rfl | rfl <;> assumption
  · refine ⟨[a], ⟨by simp, ?_⟩, by simp, by rw [h1]; rfl, k1⟩
    intro x hx
    simp only [List.mem_singleton] at hx
    subst hx
    exact ha

/-- Every outcome of the in-progress pattern reads `whitespace, byte count,
whitespace, one to three digits, %` and records the byte count and the digits
as groups 1 and 3. -/
theorem mem_run_progressRegex {s : List Char} {st : MState}
    (h : st ∈ progressRegex.re.run (s, [])) :
    ∃ ws g gs ws1 ps k', (∀ c ∈ ws, isSpace c = true) ∧ IsDigits g ∧ (∀ x ∈ gs, IsDigits x) ∧
      (ws1 ≠ [] ∧ ∀ c ∈ ws1, isSpace c = true) ∧ IsDigits ps ∧ ps.length ≤ 3 ∧
      s = ws ++ (byteCount g gs ++ (ws1 ++ (ps ++ '%' :: st.1))) ∧
      st.2 = (3, ps) :: (1, byteCount g gs) :: k' := by
  simp only [progressRegex] at h
  rw [run_seq, List.mem_flatMap] at h
  obtain ⟨m0, hm0, h⟩ := h
  obtain ⟨ws, hws, e0, _⟩ := mem_run_star_cls hm0
  rw [run_seq, List.mem_flatMap] at h
  obtain ⟨m1, hm1, h⟩ := h
  obtain ⟨i1, hi1, e1⟩ := mem_run_group hm1
  obtain ⟨g, gs, hg, hgs, eb⟩ := mem_run_bytesRe hi1
  rw [run_seq, List.mem_flatMap] at h
  obtain ⟨m2, hm2, h⟩ := h
  obtain ⟨ws1, hne1, hws1, e2, k2⟩ := mem_run_plus_cls hm2
  rw [run_seq, List.mem_flatMap] at h
  obtain ⟨m3, hm3, h⟩ := h
  obtain ⟨i3, hi3, e3⟩ := mem_run_group hm3
  obtain ⟨ps, hps, hlen, ep, kp⟩ := mem_run_pctRe hi3
  obtain ⟨e4, k4⟩ := mem_run_chr h
  rw [eb, take_diff_append] at e1
  rw [ep, take_diff_append] at e3
  subst e1 e3
  simp only at e2 k2 e4 k4 kp
  refine ⟨ws, g, gs, ws1, ps, i1.2, hws, hg, hgs, ⟨hne1, hws1⟩, hps, hlen, ?_, ?_⟩
  · simp only at e0
    rw [e0, eb, e2, ep, e4]
  · rw [k4, kp, k2]

/-- Every outcome of the terminal pattern reads `whitespace, "total size is ",
byte count` and records the byte count as group 1. -/
theorem mem_run_rsyncEndRegex {s : List Char} {st : MState}
    (h : st ∈ rsyncEndRegex.re.run (s, [])) :
    ∃ ws g gs k', (∀ c ∈ ws, isSpace c = true) ∧ IsDigits g ∧ (∀ x ∈ gs, IsDigits x) ∧
      s = ws ++ ("total size is ".toList ++ (byteCount g gs ++ st.1)) ∧
      st.2 = (1, byteCount g gs) :: k' := by
  simp only [rsyncEndRegex] at h
  rw [run_seq, List.mem_flatMap] at h
  obtain ⟨m0, hm0, h⟩ := h
  obtain ⟨ws, hws, e0, _⟩ := mem_run_star_cls hm0
  rw [run_seq, List.mem_flatMap] at h
  obtain ⟨m1, hm1, h⟩ := h
  obtain ⟨e1, _⟩ := mem_run_lit _ hm1
  obtain ⟨i1, hi1, e2⟩ := mem_run_group h
  obtain ⟨g, gs, hg, hgs, eb⟩ := mem_run_bytesRe hi1
  rw [eb, take_diff_append] at e2
  subst e2
  refine ⟨ws, g, gs, i1.2, hws, hg, hgs, ?_, rfl⟩
  simp only at e0
  rw [e0, e1, eb]

/-! ## Byte counts and percentages as numbers -/

theorem filter_comma_digits {x : List Char} (hx : ∀ c ∈ x, isDigit c = true) :
    x.filter (fun c => c != ',') = x := by
  rw [List.filter_eq_self]
  intro c hc
  simpa using isDigit_ne_comma (hx c hc)

theorem filter_comma_groups (gs : List (List Char)) (hgs : ∀ x ∈ gs, IsDigits x) :
    ((gs.map (fun x => ',' :: x)).flatten).filter (fun c => c != ',') = gs.flatten := by
  induction gs with
  | nil => rfl
  | cons x gs ih =>
    have hx := hgs x (List.mem_cons_self _ _)
    simp only [List.map_cons, List.flatten_cons, List.filter_append]
    rw [ih (fun y hy => hgs y (List.mem_cons_of_mem _ hy))]
    simp [List.filter_cons, filter_comma_digits hx.2]

theorem filter_comma_byteCount {g : List Char} {gs : List (List Char)}
    (hg : IsDigits g) (hgs : ∀ x ∈ gs, IsDigits x) :
    (byteCount g gs).filter (fun c => c != ',') = g ++ gs.flatten := by
  rw [byteCount, List.filter_append, filter_comma_digits hg.2, filter_comma_groups gs hgs]

theorem isDigits_groups {g : List Char} {gs : List (List Char)}
    (hg : IsDigits g) (hgs : ∀ x ∈ gs, IsDigits x) : IsDigits (g ++ gs.flatten) := by
  refine ⟨by simp [hg.1], ?_⟩
  intro c hc
  rw [List.mem_append, List.mem_flatten] at hc
  rcases hc with hc | ⟨x, hx, hc⟩
  · exact hg.2 c hc
  · exact (hgs x hx).2 c hc

/-- Function `parseNumBytes` on a byte count: its digits read as one number, or a range
error when that number does not fit an `int64`. -/
theorem parseNumBytes_byteCount {g : List Char} {gs : List (List Char)}
    (hg : IsDigits g) (hgs : ∀ x ∈ gs, IsDigits x) :
    parseNumBytes (byteCount g gs) =
      if decimal (g ++ gs.flatten) < 2 ^ 63 then .ok (decimal (g ++ gs.flatten) : Int)
      else .error ⟨"ParseInt", g ++ gs.flatten, .ErrRange⟩ := by
  rw [parseNumBytes, filter_comma_byteCount hg hgs, ParseInt_digits (isDigits_groups hg hgs)]

/-- Function `Atoi` on one to three digits never fails. -/
theorem Atoi_digits {ps : List Char} (hps : IsDigits ps) (hlen : ps.length ≤ 3) :
    Atoi ps = .ok (decimal ps : Int) ∧ decimal ps ≤ 999 := by
  have hlt := decimal_lt_pow hps.2
  have hpow : 10 ^ ps.length ≤ 10 ^ 3 := Nat.pow_le_pow_right (by norm_num) hlen
  have h999 : decimal ps ≤ 999 := by
    norm_num only at hpow
    omega
  have h63 : decimal ps < 2 ^ 63 := by
    norm_num only
    omega
  rw [Atoi, ParseInt_digits hps, if_pos h63]
  exact ⟨rfl, h999⟩

/-! ## The terminal pattern on a line with a summary -/

theorem capGet_cons_self (i : Nat) (w : List Char) (k : Caps) : capGet ((i, w) :: k) i = w := by
  simp [capGet]

theorem matchAt_rsyncEnd_shape (ws : List Char) {g : List Char} {gs : List (List Char)}
    {post : List Char}
    (hws : ∀ c ∈ ws, isSpace c = true) (hg : IsDigits g) (hgs : ∀ x ∈ gs, IsDigits x)
    (hpost : EndsNumber post) :
    ∃ w x, matchAt rsyncEndRegex
      (ws ++ ("total size is ".toList ++ (byteCount g gs ++ post))) =
        some [w, byteCount g gs, x] := by
  obtain ⟨k', h⟩ := run_rsyncEndRegex_head hws hg hgs hpost
  exact ⟨_, _, by rw [matchAt_rsyncEnd h, capGet_cons_self]⟩

theorem head?_mem {α : Type} {l : List α} {x : α} (h : l.head? = some x) : x ∈ l := by
  obtain ⟨l', rfl⟩ := List.head?_eq_some_iff.mp h
  exact List.mem_cons_self _ _

theorem matchAt_some_mem {r : Regexp} {s : List Char} {m : List (List Char)}
    (h : matchAt r s = some m) : ∃ st, (r.re.run (s, [])).head? = some st := by
  cases hh : (r.re.run (s, [])).head? with
  | none => rw [matchAt, hh] at h; exact absurd h (by simp)
  | some st => exact ⟨st, rfl⟩

/-- When the terminal pattern matches at the start of `p ++ "total size is " ++ r`
and the text occurs nowhere earlier in front of a digit, `p` is whitespace. -/
theorem rsyncEnd_align {p r ws t : List Char} {d : Char}
    (hws : ∀ c ∈ ws, isSpace c = true) (hd : isDigit d = true)
    (heq : p ++ ("total size is ".toList ++ r) = ws ++ ("total size is ".toList ++ d :: t))
    (hfirst : ∀ j d t, j < p.length →
      (p ++ ("total size is ".toList ++ r)).drop j = "total size is ".toList ++ d :: t →
      isDigit d = false) :
    p = ws := by
  rcases List.append_eq_append_iff.mp heq with ⟨a', h1, h2⟩ | ⟨c', h1, h2⟩
  · cases a' with
    | nil => simpa using h1.symm
    | cons e a'' =>
      have he : e = 't' := by
        simp only [String.toList, List.cons_append, List.cons.injEq] at h2
        exact h2.1.symm
      have : isSpace e = true := hws e (by rw [h1]; simp)
      rw [he] at this
      exact absurd this (by decide)
  · cases c' with
    | nil => simpa using h1
    | cons e c'' =>
      have hj : ws.length < p.length := by rw [h1]; simp
      have hdrop : (p ++ ("total size is ".toList ++ r)).drop ws.length =
          "total size is ".toList ++ d :: t := by
        rw [heq, List.drop_left]
      have := hfirst ws.length d t hj hdrop
      rw [hd] at this
      exact absurd this (by simp)

/-- The leftmost match of the terminal pattern on a line whose first
`total size is ` in front of a digit is followed by the byte count. -/
theorem FindStringSubmatch_rsyncEnd_first {g : List Char} {gs : List (List Char)}
    {post : List Char} (hg : IsDigits g) (hgs : ∀ x ∈ gs, IsDigits x)
    (hpost : EndsNumber post) :
    ∀ pre : List Char,
      (∀ j d t, j < pre.length →
        (pre ++ ("total size is ".toList ++ (byteCount g gs ++ post))).drop j =
          "total size is ".toList ++ d :: t → isDigit d = false) →
      ∃ w x, FindStringSubmatch rsyncEndRegex
        (pre ++ ("total size is ".toList ++ (byteCount g gs ++ post))) =
          some [w, byteCount g gs, x] := by
  intro pre
  induction pre with
  | nil =>
    intro _
    obtain ⟨w, x, h⟩ := matchAt_rsyncEnd_shape [] (by simp) hg hgs hpost
    exact ⟨w, x, FindStringSubmatch_of_matchAt h⟩
  | cons c pre ih =>
    intro hfirst
    cases hm : matchAt rsyncEndRegex
        (c :: pre ++ ("total size is ".toList ++ (byteCount g gs ++ post))) with
    | none =>
      obtain ⟨w, x, h⟩ := ih (by
        intro j d t hj hdrop
        exact hfirst (j + 1) d t (by simpa using hj) (by simpa using hdrop))
      refine ⟨w, x, ?_⟩
      rw [List.cons_append, FindStringSubmatch]
      rw [List.cons_append] at hm
      rw [hm]
      exact h
    | some m =>
      obtain ⟨st, hst⟩ := matchAt_some_mem hm
      obtain ⟨ws', g', gs', k', hws', hg', _, e, _⟩ := mem_run_rsyncEndRegex (head?_mem hst)
      obtain ⟨hne', hd'⟩ := hg'
      cases g' with
      | nil => exact absurd rfl hne'
      | cons d g'' =>
        have hd : isDigit d = true := hd' d (List.mem_cons_self _ _)
        have e' : (c :: pre) ++ ("total size is ".toList ++ (byteCount g gs ++ post)) =
            ws' ++ ("total size is ".toList ++
              d :: (g'' ++ ((gs'.map (fun x => ',' :: x)).flatten ++ st.1))) := by
          rw [e, byteCount]
          simp
        have hp := rsyncEnd_align hws' hd e' hfirst
        obtain ⟨w, x, h⟩ := matchAt_rsyncEnd_shape (c :: pre)
          (by rw [hp]; exact hws') hg hgs hpost
        exact ⟨w, x, FindStringSubmatch_of_matchAt h⟩

/-! ## The in-progress pattern on a line with a progress record -/

theorem FindStringSubmatch_none (r : Regexp) :
    ∀ line : List Char, (∀ a s, line = a ++ s → matchAt r s = none) →
      FindStringSubmatch r line = none := by
  intro line
  induction line with
  | nil =>
    intro h
    rw [FindStringSubmatch]
    exact h [] [] rfl
  | cons c cs ih =>
    intro h
    rw [FindStringSubmatch, h [] (c :: cs) rfl]
    exact ih (fun a s e => h (c :: a) s (by rw [e]; rfl))

theorem matchAt_rsyncEnd_some {s : List Char} {m : List (List Char)}
    (h : matchAt rsyncEndRegex s = some m) :
    ∃ (ws : List Char) (d : Char) (t : List Char), (∀ c ∈ ws, isSpace c = true) ∧
      isDigit d = true ∧ s = ws ++ ("total size is ".toList ++ d :: t) := by
  obtain ⟨st, hst⟩ := matchAt_some_mem h
  obtain ⟨ws, g, gs, k', hws, hg, _, e, _⟩ := mem_run_rsyncEndRegex (head?_mem hst)
  obtain ⟨hne, hd⟩ := hg
  cases g with
  | nil => exact absurd rfl hne
  | cons d g' =>
    exact ⟨ws, d, _, hws, hd d (List.mem_cons_self _ _), by rw [e, byteCount]; simp; rfl⟩

/-- A line without `total size is ` in front of a digit does not match the
terminal pattern. -/
theorem findNamedMatches_rsyncEnd_nil {line : List Char} (h : ¬ HasTerminalSummary line) :
    findNamedMatches rsyncEndRegex line = [] := by
  have hnone : FindStringSubmatch rsyncEndRegex line = none := by
    apply FindStringSubmatch_none
    intro a s e
    cases hm : matchAt rsyncEndRegex s with
    | none => rfl
    | some m =>
      obtain ⟨ws, d, t, _, hd, es⟩ := matchAt_rsyncEnd_some hm
      exact absurd ⟨a ++ ws, d, t, hd, by rw [e, es, List.append_assoc]⟩ h
  rw [findNamedMatches, hnone]

theorem matchAt_progress_some {s : List Char} {m : List (List Char)}
    (h : matchAt progressRegex s = some m) : BeginsWithProgress s := by
  obtain ⟨st, hst⟩ := matchAt_some_mem h
  obtain ⟨ws, g, gs, ws1, ps, k', hws, hg, hgs, hws1, hps, hlen, e, _⟩ :=
    mem_run_progressRegex (head?_mem hst)
  exact ⟨ws, g, gs, ws1, ps, st.1, hws, hg, hgs, hws1, hps, hlen, e⟩

theorem matchAt_progress_shape {ws g : List Char} {gs : List (List Char)}
    {ws1 ps : List Char} (post : List Char)
    (hws : ∀ c ∈ ws, isSpace c = true) (hg : IsDigits g) (hgs : ∀ x ∈ gs, IsDigits x)
    (hws1 : ws1 ≠ [] ∧ ∀ c ∈ ws1, isSpace c = true)
    (hps : IsDigits ps) (hlen : ps.length ≤ 3) :
    ∃ w x, matchAt progressRegex
      (ws ++ (byteCount g gs ++ (ws1 ++ (ps ++ '%' :: post)))) =
        some [w, byteCount g gs, x, ps] := by
  obtain ⟨k', h⟩ := run_progressRegex_head post hws hg hgs hws1 hps hlen
  have h' := matchAt_progress h
  simp only [capGet_cons_self] at h'
  have h3 : capGet ((3, ps) :: (1, byteCount g gs) :: k') 1 = byteCount g gs := by
    simp [capGet]
  rw [h3] at h'
  exact ⟨_, _, h'⟩

/-- What `parseLogLine` returns on a line whose leftmost in-progress record has
the byte count `byteCount g gs` and the percentage digits `ps`, and which has no
terminal summary. -/
theorem parseLogLine_progress_eq (ovf : F64 → Int) (pre ws g : List Char)
    (gs : List (List Char)) (ws1 ps post : List Char)
    (hws : ∀ c ∈ ws, isSpace c = true) (hg : IsDigits g) (hgs : ∀ x ∈ gs, IsDigits x)
    (hws1 : ws1 ≠ [] ∧ ∀ c ∈ ws1, isSpace c = true)
    (hps : IsDigits ps) (hlen : ps.length ≤ 3)
    (hterm : ¬ HasTerminalSummary
      (pre ++ (ws ++ (byteCount g gs ++ (ws1 ++ (ps ++ '%' :: post))))))
    (hfirst : ∀ j, j < pre.length → ¬ BeginsWithProgress
      ((pre ++ (ws ++ (byteCount g gs ++ (ws1 ++ (ps ++ '%' :: post))))).drop j))
    (hfit : decimal (g ++ gs.flatten) < 2 ^ 63) :
    parseLogLine ovf (pre ++ (ws ++ (byteCount g gs ++ (ws1 ++ (ps ++ '%' :: post))))) =
      .ok (some ⟨if (decimal ps : Int) = 0 then 1 else (decimal ps : Int),
        (decimal (g ++ gs.flatten) : Int),
        if (decimal (g ++ gs.flatten) : Int) >
            estimateTotal ovf (decimal (g ++ gs.flatten))
              (if (decimal ps : Int) = 0 then 1 else (decimal ps : Int))
        then (decimal (g ++ gs.flatten) : Int)
        else estimateTotal ovf (decimal (g ++ gs.flatten))
          (if (decimal ps : Int) = 0 then 1 else (decimal ps : Int))⟩) := by
  have hend := findNamedMatches_rsyncEnd_nil hterm
  obtain ⟨w, x, hm⟩ := matchAt_progress_shape post hws hg hgs hws1 hps hlen
  have hskip := FindStringSubmatch_skip progressRegex
    (ws ++ (byteCount g gs ++ (ws1 ++ (ps ++ '%' :: post)))) pre (by
      intro j hj
      cases hj' : matchAt progressRegex
          ((pre ++ (ws ++ (byteCount g gs ++ (ws1 ++ (ps ++ '%' :: post))))).drop j) with
      | none => rfl
      | some m => exact absurd (matchAt_progress_some hj') (hfirst j hj))
  have hfind := hskip.trans (FindStringSubmatch_of_matchAt hm)
  have hpr := findNamedMatches_progress hfind
  have hb : mapGet [("percentage", ps), ("", x), ("bytes", byteCount g gs)] "bytes" =
      byteCount g gs := by simp [mapGet]
  have hp : mapGet [("percentage", ps), ("", x), ("bytes", byteCount g gs)] "percentage" =
      ps := by simp [mapGet]
  simp only [parseLogLine, hend, hpr, hb, hp, parseNumBytes_byteCount hg hgs, if_pos hfit,
    (Atoi_digits hps hlen).1]
  simp

/-! ## Every line: what the two patterns can yield -/

theorem FindStringSubmatch_cases (r : Regexp) :
    ∀ line : List Char, FindStringSubmatch r line = none ∨
      ∃ a s m, line = a ++ s ∧ matchAt r s = some m ∧
        FindStringSubmatch r line = some m := by
  intro line
  induction line with
  | nil =>
    cases hm : matchAt r [] with
    | none => left; rw [FindStringSubmatch, hm]
    | some m => right; exact ⟨[], [], m, rfl, hm, by rw [FindStringSubmatch, hm]⟩
  | cons c cs ih =>
    cases hm : matchAt r (c :: cs) with
    | none =>
      rcases ih with h | ⟨a, s, m, e, h1, h2⟩
      · left; rw [FindStringSubmatch, hm, h]
      · right
        exact ⟨c :: a, s, m, by rw [e]; rfl, h1, by rw [FindStringSubmatch, hm, h2]⟩
    | some m =>
      right
      exact ⟨[], c :: cs, m, rfl, hm, by rw [FindStringSubmatch, hm]⟩

/-- The terminal pattern either does not match, or its `bytes` is a byte count. -/
theorem findNamedMatches_rsyncEnd_cases (line : List Char) :
    findNamedMatches rsyncEndRegex line = [] ∨
    ∃ (g : List Char) (gs : List (List Char)) (x : List Char),
      IsDigits g ∧ (∀ y ∈ gs, IsDigits y) ∧
      findNamedMatches rsyncEndRegex line = [("", x), ("bytes", byteCount g gs)] := by
  rcases FindStringSubmatch_cases rsyncEndRegex line with h | ⟨a, s, m, _, hm, hf⟩
  · left; rw [findNamedMatches, h]
  · right
    obtain ⟨st, hst⟩ := matchAt_some_mem hm
    obtain ⟨ws, g, gs, k', _, hg, hgs, _, hk⟩ := mem_run_rsyncEndRegex (head?_mem hst)
    have h' := matchAt_rsyncEnd hst
    rw [hm, hk, capGet_cons_self] at h'
    rw [Option.some.injEq] at h'
    rw [h'] at hf
    exact ⟨g, gs, _, hg, hgs, findNamedMatches_rsyncEnd hf⟩

/-- The in-progress pattern either does not match, or its `bytes` is a byte
count and its `percentage` is one to three digits. -/
theorem findNamedMatches_progress_cases (line : List Char) :
    findNamedMatches progressRegex line = [] ∨
    ∃ (g : List Char) (gs : List (List Char)) (ps x : List Char),
      IsDigits g ∧ (∀ y ∈ gs, IsDigits y) ∧ IsDigits ps ∧ ps.length ≤ 3 ∧
      findNamedMatches progressRegex line =
        [("percentage", ps), ("", x), ("bytes", byteCount g gs)] := by
  rcases FindStringSubmatch_cases progressRegex line with h | ⟨a, s, m, _, hm, hf⟩
  · left; rw [findNamedMatches, h]
  · right
    obtain ⟨st, hst⟩ := matchAt_some_mem hm
    obtain ⟨ws, g, gs, ws1, ps, k', _, hg, hgs, _, hps, hlen, _, hk⟩ :=
      mem_run_progressRegex (head?_mem hst)
    have h' := matchAt_progress hst
    have h1 : capGet ((3, ps) :: (1, byteCount g gs) :: k') 1 = byteCount g gs := by
      simp [capGet]
    rw [hm, hk, capGet_cons_self, h1] at h'
    rw [Option.some.injEq] at h'
    rw [h'] at hf
    exact ⟨g, gs, ps, _, hg, hgs, hps, hlen, findNamedMatches_progress hf⟩

/-- The three forms of the result of `parseLogLine`. -/
theorem parseLogLine_cases (ovf : F64 → Int) (line : List Char) :
    parseLogLine ovf line = .ok none ∨
    (∃ T : Nat, parseLogLine ovf line = .ok (some ⟨100, T, T⟩)) ∨
    (∃ (T P : Nat), P ≤ 999 ∧
      parseLogLine ovf line = .ok (some ⟨if (P : Int) = 0 then 1 else (P : Int), (T : Int),
        if (T : Int) > estimateTotal ovf T (if (P : Int) = 0 then 1 else (P : Int))
        then (T : Int)
        else estimateTotal ovf T (if (P : Int) = 0 then 1 else (P : Int))⟩)) ∨
    (∃ ds : List Char, parseLogLine ovf line = .error ⟨"ParseInt", ds, .ErrRange⟩) := by
  rcases findNamedMatches_rsyncEnd_cases line with he | ⟨g, gs, x, hg, hgs, he⟩
  · rcases findNamedMatches_progress_cases line with hp | ⟨g, gs, ps, x, hg, hgs, hps, hlen, hp⟩
    · left
      simp [parseLogLine, he, hp]
    · right; right
      have hb : mapGet [("percentage", ps), ("", x), ("bytes", byteCount g gs)] "bytes" =
          byteCount g gs := by simp [mapGet]
      have hpc : mapGet [("percentage", ps), ("", x), ("bytes", byteCount g gs)] "percentage" =
          ps := by simp [mapGet]
      obtain ⟨hatoi, h999⟩ := Atoi_digits hps hlen
      by_cases hfit : decimal (g ++ gs.flatten) < 2 ^ 63
      · left
        refine ⟨decimal (g ++ gs.flatten), decimal ps, h999, ?_⟩
        simp only [parseLogLine, he, hp, hb, hpc, parseNumBytes_byteCount hg hgs, if_pos hfit,
          hatoi]
        simp
      · right
        refine ⟨g ++ gs.flatten, ?_⟩
        simp only [parseLogLine, he, hp, hb, hpc, parseNumBytes_byteCount hg hgs, if_neg hfit,
          hatoi]
        simp
  · have hb : mapGet [("", x), ("bytes", byteCount g gs)] "bytes" = byteCount g gs := by
      simp [mapGet]
    by_cases hfit : decimal (g ++ gs.flatten) < 2 ^ 63
    · right; left
      refine ⟨decimal (g ++ gs.flatten), ?_⟩
      simp only [parseLogLine, he, hb, parseNumBytes_byteCount hg hgs, if_pos hfit]
      simp
    · right; right; right
      refine ⟨g ++ gs.flatten, ?_⟩
      simp only [parseLogLine, he, hb, parseNumBytes_byteCount hg hgs, if_neg hfit]
      simp

/-! ## Matching and the shape of the line are the same thing -/

theorem starLoop_ne_nil (step : MState → List MState) (fuel : Nat) (st : MState) :
    starLoop step fuel st ≠ [] := by
  cases fuel <;> simp [starLoop]

theorem flatMap_ne_nil {α β : Type} {l : List α} {f : α → List β} (hl : l ≠ [])
    (hf : ∀ x ∈ l, f x ≠ []) : l.flatMap f ≠ [] := by
  cases l with
  | nil => exact absurd rfl hl
  | cons x xs =>
    have := hf x (List.mem_cons_self _ _)
    simp [this]

theorem run_bytesRe_ne_nil (i : Nat) {d : Char} (hd : isDigit d = true) (t : List Char)
    (k : Caps) : (bytesRe i).run (d :: t, k) ≠ [] := by
  rw [bytesRe, run_seq]
  apply flatMap_ne_nil
  · rw [run_plus]
    apply flatMap_ne_nil
    · simp [Regex.run, hd]
    · intro x _
      rw [run_star]
      exact starLoop_ne_nil _ _ _
  · intro x _
    rw [run_star]
    exact starLoop_ne_nil _ _ _

theorem matchAt_isSome_of_run_ne_nil {r : Regexp} {s : List Char}
    (h : r.re.run (s, []) ≠ []) : ∃ m, matchAt r s = some m := by
  cases hl : r.re.run (s, []) with
  | nil => exact absurd hl h
  | cons x xs => exact ⟨_, by rw [matchAt, hl]; rfl⟩

/-- An anchored attempt of the terminal pattern succeeds exactly on whitespace,
`total size is ` and a digit. -/
theorem matchAt_rsyncEnd_iff (s : List Char) :
    (∃ m, matchAt rsyncEndRegex s = some m) ↔
      ∃ (ws : List Char) (d : Char) (t : List Char), (∀ c ∈ ws, isSpace c = true) ∧
        isDigit d = true ∧ s = ws ++ ("total size is ".toList ++ d :: t) := by
  constructor
  · rintro ⟨m, hm⟩
    exact matchAt_rsyncEnd_some hm
  · rintro ⟨ws, d, t, hws, hd, rfl⟩
    apply matchAt_isSome_of_run_ne_nil
    have hstop : Stops isSpace ("total size is ".toList ++ d :: t) := by
      intro c t' h
      simp only [String.toList, List.cons_append, List.cons.injEq] at h
      rw [← h.1]
      decide
    have h0 := run_star_cls_head hstop hws []
    obtain ⟨l0, hl0⟩ := List.head?_eq_some_iff.mp h0
    simp only [rsyncEndRegex]
    rw [run_seq, hl0, List.flatMap_cons]
    intro hnil
    have h1 := (List.append_eq_nil.mp hnil).1
    rw [run_seq, run_lit, List.flatMap_cons, List.flatMap_nil, List.append_nil, run_group,
      List.map_eq_nil_iff] at h1
    exact run_bytesRe_ne_nil 2 hd t [] h1

/-- An anchored attempt of the in-progress pattern succeeds exactly on a text
that begins with an in-progress record. -/
theorem matchAt_progress_iff (s : List Char) :
    (∃ m, matchAt progressRegex s = some m) ↔ BeginsWithProgress s := by
  constructor
  · rintro ⟨m, hm⟩
    exact matchAt_progress_some hm
  · rintro ⟨ws, g, gs, ws1, ps, post, hws, hg, hgs, hws1, hps, hlen, rfl⟩
    obtain ⟨w, x, h⟩ := matchAt_progress_shape post hws hg hgs hws1 hps hlen
    exact ⟨_, h⟩

theorem FindStringSubmatch_eq_none_iff (r : Regexp) :
    ∀ line : List Char, FindStringSubmatch r line = none ↔
      ∀ a s, line = a ++ s → matchAt r s = none := by
  intro line
  refine ⟨?_, FindStringSubmatch_none r line⟩
  induction line with
  | nil =>
    intro h a s e
    obtain ⟨rfl, rfl⟩ := List.append_eq_nil.mp e.symm
    simpa [FindStringSubmatch] using h
  | cons c cs ih =>
    intro h a s e
    rw [FindStringSubmatch] at h
    cases hm : matchAt r (c :: cs) with
    | some m => rw [hm] at h; simp at h
    | none =>
      rw [hm] at h
      cases a with
      | nil => rw [List.nil_append] at e; rw [← e]; exact hm
      | cons x a' =>
        rw [List.cons_append, List.cons.injEq] at e
        exact ih h a' s e.2

theorem findNamedMatches_eq_nil_iff_rsyncEnd (line : List Char) :
    findNamedMatches rsyncEndRegex line = [] ↔
      FindStringSubmatch rsyncEndRegex line = none := by
  constructor
  · intro h
    rcases FindStringSubmatch_cases rsyncEndRegex line with h' | ⟨a, s, m, _, hm, hf⟩
    · exact h'
    · rcases findNamedMatches_rsyncEnd_cases line with _ | ⟨g, gs, x, _, _, h2⟩
      · obtain ⟨st, hst⟩ := matchAt_some_mem hm
        have h3 := matchAt_rsyncEnd hst
        rw [hm, Option.some.injEq] at h3
        rw [h3] at hf
        rw [findNamedMatches_rsyncEnd hf] at h
        simp at h
      · rw [h2] at h; simp at h
  · intro h
    rw [findNamedMatches, h]

theorem findNamedMatches_eq_nil_iff_progress (line : List Char) :
    findNamedMatches progressRegex line = [] ↔
      FindStringSubmatch progressRegex line = none := by
  constructor
  · intro h
    rcases FindStringSubmatch_cases progressRegex line with h' | ⟨a, s, m, _, hm, hf⟩
    · exact h'
    · obtain ⟨st, hst⟩ := matchAt_some_mem hm
      have h3 := matchAt_progress hst
      rw [hm, Option.some.injEq] at h3
      rw [h3] at hf
      rw [findNamedMatches_progress hf] at h
      simp at h
  · intro h
    rw [findNamedMatches, h]

/-- The terminal pattern matches a line exactly when the line contains
`total size is ` in front of a digit. -/
theorem rsyncEnd_matches_iff (line : List Char) :
    findNamedMatches rsyncEndRegex line ≠ [] ↔ HasTerminalSummary line := by
  rw [Ne, findNamedMatches_eq_nil_iff_rsyncEnd, FindStringSubmatch_eq_none_iff]
  constructor
  · intro h
    by_contra hno
    apply h
    intro a s e
    cases hm : matchAt rsyncEndRegex s with
    | none => rfl
    | some m =>
      obtain ⟨ws, d, t, _, hd, es⟩ := matchAt_rsyncEnd_some hm
      exact absurd ⟨a ++ ws, d, t, hd, by rw [e, es, List.append_assoc]⟩ hno
  · rintro ⟨a, d, b, hd, e⟩ h
    have h1 := h a _ e
    obtain ⟨m, hm⟩ := (matchAt_rsyncEnd_iff _).mpr ⟨[], d, b, by simp, hd, rfl⟩
    rw [List.nil_append] at hm
    rw [hm] at h1
    simp at h1

/-- The in-progress pattern matches a line exactly when an in-progress record
begins somewhere in the line. -/
theorem progress_matches_iff (line : List Char) :
    findNamedMatches progressRegex line ≠ [] ↔
      ∃ a s, line = a ++ s ∧ BeginsWithProgress s := by
  rw [Ne, findNamedMatches_eq_nil_iff_progress, FindStringSubmatch_eq_none_iff]
  constructor
  · intro h
    by_contra hno
    apply h
    intro a s e
    cases hm : matchAt progressRegex s with
    | none => rfl
    | some m => exact absurd ⟨a, s, e, matchAt_progress_some hm⟩ hno
  · rintro ⟨a, s, e, hb⟩ h
    obtain ⟨m, hm⟩ := (matchAt_progress_iff s).mpr hb
    rw [h a s e] at hm
    simp at hm

/-! ## Helper lemmas for the batch scan, the reporter and the supervisor -/

theorem scan_all_none (ovf : F64 → Int) :
    ∀ ls : List (List Char), (∀ l ∈ ls, parseLogLine ovf l = .ok none) →
      getLatestProgress.scan ovf ls = .ok none := by
  intro ls
  induction ls with
  | nil => intro _; rfl
  | cons l ls ih =>
    intro h
    rw [getLatestProgress.scan, h l (List.mem_cons_self _ _)]
    exact ih (fun x hx => h x (List.mem_cons_of_mem _ hx))

theorem scan_skip (ovf : F64 → Int) (rest : List (List Char)) :
    ∀ ls : List (List Char), (∀ l ∈ ls, parseLogLine ovf l = .ok none) →
      getLatestProgress.scan ovf (ls ++ rest) = getLatestProgress.scan ovf rest := by
  intro ls
  induction ls with
  | nil => intro _; rfl
  | cons l ls ih =>
    intro h
    rw [List.cons_append, getLatestProgress.scan, h l (List.mem_cons_self _ _)]
    exact ih (fun x hx => h x (List.mem_cons_of_mem _ hx))

theorem parseLogLine_no_match {ovf : F64 → Int} {l : List Char}
    (h : findNamedMatches rsyncEndRegex l = [] ∧ findNamedMatches progressRegex l = []) :
    parseLogLine ovf l = .ok none := by
  simp [parseLogLine, h.1, h.2]

theorem getLatestProgress_split (ovf : F64 → Int) (before after : List (List Char))
    (l : List Char) (hafter : ∀ a ∈ after, parseLogLine ovf a = .ok none) :
    getLatestProgress ovf (before ++ l :: after) =
      getLatestProgress.scan ovf (l :: before.reverse) := by
  rw [getLatestProgress, List.reverse_append, List.reverse_cons, List.append_assoc,
    scan_skip ovf _ after.reverse (fun x hx => hafter x (List.mem_reverse.mp hx))]
  rfl

theorem tailPodLogs_round_done {r : Reporter} (h : r.result.isSome = true) (pick : Pick)
    (a : Answers) : tailPodLogs.round r pick a = r := by
  cases hr : r.result with
  | none => rw [hr] at h; simp at h
  | some v => simp [tailPodLogs.round, hr]

theorem foldl_tailPodLogs_done (rest : List (Pick × Answers)) :
    ∀ r : Reporter, r.result.isSome = true →
      rest.foldl (fun r e => tailPodLogs.round r e.1 e.2) r = r := by
  induction rest with
  | nil => intro r _; rfl
  | cons e rest ih =>
    intro r h
    rw [List.foldl_cons, tailPodLogs_round_done h]
    exact ih r h

theorem tailPodLogs_append (rounds rest : List (Pick × Answers)) :
    tailPodLogs (rounds ++ rest) =
      rest.foldl (fun r e => tailPodLogs.round r e.1 e.2) (tailPodLogs rounds) := by
  rw [tailPodLogs, List.foldl_append]
  rfl

theorem completion_iff (jobName : String) (res : Except GoError PodPhase) :
    (completion jobName res).1 = true ↔ (completion jobName res).2 = none := by
  cases res with
  | error err => simp [completion]
  | ok p => by_cases hp : p = .PodSucceeded <;> simp [completion, hp]

theorem round_recv_done (fancy : Bool) (ovf : F64 → Int) (r : Reporter) (b : Bool)
    (a : Answers) (hr : r.result = none) :
    (tryLogProgressFromRsyncLogs.round fancy ovf r (.recv b) a).result.isSome = true := by
  cases fancy <;> cases b <;>
    simp [tryLogProgressFromRsyncLogs.round, tailPodLogs.round,
      drawProgressBarFromRsyncLogs.round, hr]
  cases a.bar <;> simp

theorem Sys.step_inv (fancy : Bool) (ovf : F64 → Int) (jobName : String) (s s' : Sys)
    (l : Label) (h : Sys.step fancy ovf jobName s l = some s') (hinv : s.Inv) : s'.Inv := by
  obtain ⟨hrec, hsup⟩ := hinv
  cases l with
  | podWait res =>
    cases hs : s.sup with
    | waiting =>
      simp only [Sys.step, hs, Option.some.injEq] at h
      subst h
      rw [hs] at hsup
      exact ⟨hrec, hsup.1, hsup.2.1, hsup.2.2, completion_iff jobName res⟩
    | sending b ret => simp [Sys.step, hs] at h
    | joining ret => simp [Sys.step, hs] at h
    | returned ret => simp [Sys.step, hs] at h
  | send =>
    cases hs : s.sup with
    | waiting => simp [Sys.step, hs] at h
    | sending b ret =>
      rw [hs] at hsup
      obtain ⟨h1, h2, h3, h4⟩ := hsup
      simp only [Sys.step, hs, h2, List.length_nil, Nat.lt_one_iff, if_true,
        Option.some.injEq] at h
      subst h
      refine ⟨hrec, b, ?_, h4, Or.inr ⟨h3, ?_⟩⟩
      · simp [h1]
      · simp
    | joining ret => simp [Sys.step, hs] at h
    | returned ret => simp [Sys.step, hs] at h
  | recv a =>
    cases hr : s.rep.result with
    | some v => simp [Sys.step, hr] at h
    | none =>
      cases hc : s.chan with
      | nil => simp [Sys.step, hr, hc] at h
      | cons b rest =>
        simp only [Sys.step, hr, hc, Option.some.injEq] at h
        subst h
        have hdone := round_recv_done fancy ovf s.rep b a hr
        refine ⟨fun _ => hdone, ?_⟩
        cases hs : s.sup with
        | waiting => rw [hs] at hsup; rw [hsup.2.1] at hc; simp at hc
        | sending b' ret => rw [hs] at hsup; rw [hsup.2.1] at hc; simp at hc
        | joining ret =>
          rw [hs] at hsup
          obtain ⟨b', h1, h2, h3⟩ := hsup
          rcases h3 with ⟨_, h3⟩ | ⟨_, h3⟩
          · rw [h3] at hc; simp at hc
          · rw [h3] at hc
            simp only [List.cons.injEq] at hc
            obtain ⟨rfl, rfl⟩ := hc
            exact ⟨b', h1, h2, Or.inl ⟨rfl, rfl⟩⟩
        | returned ret =>
          rw [hs] at hsup
          obtain ⟨h0, _⟩ := hsup
          rw [hr] at h0
          simp at h0
  | tick a =>
    cases hr : s.rep.result with
    | some v => simp [Sys.step, hr] at h
    | none =>
      simp only [Sys.step, hr, Option.some.injEq] at h
      subst h
      have hnone : s.received = none := by
        cases hrc : s.received with
        | none => rfl
        | some v =>
          have := hrec (by rw [hrc]; rfl)
          rw [hr] at this
          simp at this
      refine ⟨fun hx => by simp [hnone] at hx, ?_⟩
      cases hs : s.sup with
      | waiting => rw [hs] at hsup; exact hsup
      | sending b ret => rw [hs] at hsup; exact hsup
      | joining ret => rw [hs] at hsup; exact hsup
      | returned ret =>
        rw [hs] at hsup
        obtain ⟨h0, _⟩ := hsup
        rw [hr] at h0
        simp at h0
  | join =>
    cases hs : s.sup with
    | waiting => simp [Sys.step, hs] at h
    | sending b ret => simp [Sys.step, hs] at h
    | joining ret =>
      rw [hs] at hsup
      by_cases hd : s.rep.result.isSome = true
      · simp only [Sys.step, hs, hd, if_true, Option.some.injEq] at h
        subst h
        exact ⟨hrec, hd, hsup⟩
      · simp [Sys.step, hs, hd] at h
    | returned ret => simp [Sys.step, hs] at h

theorem Sys.exec_inv (fancy : Bool) (ovf : F64 → Int) (jobName : String) :
    ∀ (labels : List Label) (s s' : Sys),
      Sys.exec fancy ovf jobName s labels = some s' → s.Inv → s'.Inv := by
  intro labels
  induction labels with
  | nil =>
    intro s s' h hinv
    simp only [Sys.exec, Option.some.injEq] at h
    subst h
    exact hinv
  | cons l ls ih =>
    intro s s' h hinv
    cases hstep : Sys.step fancy ovf jobName s l with
    | none => simp [Sys.exec, hstep] at h
    | some s1 =>
      simp only [Sys.exec, hstep] at h
      exact ih s1 s' h (Sys.step_inv fancy ovf jobName s s1 l hstep hinv)

theorem Sys.init_inv (fancy : Bool) (probe : Except GoError (List (List Char))) :
    (Sys.init fancy probe).Inv := by
  simp [Sys.init, Sys.Inv]

theorem endsNumber_nil : EndsNumber [] :=
  ⟨fun _ _ h => by simp at h, fun _ _ h => by simp at h⟩

theorem not_hasTerminalSummary_of_not_mem {line : List Char} (h : 't' ∉ line) :
    ¬ HasTerminalSummary line := by
  rintro ⟨a, d, b, _, e⟩
  apply h
  rw [e]
  simp

theorem Sys.can_join (fancy : Bool) (ovf : F64 → Int) (jobName : String) (a : Answers)
    (s : Sys) (ret : Option GoError) (hinv : s.Inv) (hs : s.sup = .joining ret) :
    ∃ labels s', Sys.exec fancy ovf jobName s labels = some s' ∧ s'.sup = .returned ret := by
  obtain ⟨hrec, hsup⟩ := hinv
  rw [hs] at hsup
  obtain ⟨b, _, _, hch⟩ := hsup
  cases hr : s.rep.result with
  | some v =>
    exact ⟨[.join], { s with sup := .returned ret }, by simp [Sys.exec, Sys.step, hs, hr], rfl⟩
  | none =>
    have hnone : s.received = none := by
      cases hrc : s.received with
      | none => rfl
      | some v =>
        have := hrec (by rw [hrc]; rfl)
        rw [hr] at this
        simp at this
    rcases hch with ⟨h1, _⟩ | ⟨_, h2⟩
    · rw [hnone] at h1; simp at h1
    · have hdone := round_recv_done fancy ovf s.rep b a hr
      refine ⟨[.recv a, .join],
        { s with sup := .returned ret, chan := [], received := some b,
                 rep := tryLogProgressFromRsyncLogs.round fancy ovf s.rep (.recv b) a },
        ?_, rfl⟩
      simp [Sys.exec, Sys.step, hs, hr, h2, hdone]

/-- No run gets stuck: from every state of a run the supervisor can be brought
to its return. -/
theorem Sys.can_return (fancy : Bool) (ovf : F64 → Int) (jobName : String)
    (res : Except GoError PodPhase) (a : Answers) (s : Sys) (hinv : s.Inv) :
    ∃ labels s' ret, Sys.exec fancy ovf jobName s labels = some s' ∧
      s'.sup = .returned ret := by
  have hsend : ∀ (s1 : Sys) (b : Bool) (ret : Option GoError), s1.Inv →
      s1.sup = .sending b ret →
      ∃ labels s', Sys.exec fancy ovf jobName s1 labels = some s' ∧
        s'.sup = .returned ret := by
    intro s1 b ret hinv1 hs1
    have hch : s1.chan = [] := by
      have := hinv1.2
      rw [hs1] at this
      exact this.2.1
    have hstep : Sys.step fancy ovf jobName s1 .send =
        some { s1 with sup := .joining ret, chan := s1.chan ++ [b], sent := s1.sent ++ [b] } := by
      simp [Sys.step, hs1, hch]
    obtain ⟨ls, s', h1, h2⟩ := Sys.can_join fancy ovf jobName a _ ret
      (Sys.step_inv fancy ovf jobName s1 _ .send hstep hinv1) rfl
    exact ⟨.send :: ls, s', by simp only [Sys.exec, hstep]; exact h1, h2⟩
  cases hs : s.sup with
  | waiting =>
    have hstep : Sys.step fancy ovf jobName s (.podWait res) =
        some { s with sup := .sending (completion jobName res).1 (completion jobName res).2 } := by
      simp [Sys.step, hs]
    obtain ⟨ls, s', h1, h2⟩ := hsend _ _ _
      (Sys.step_inv fancy ovf jobName s _ (.podWait res) hstep hinv) rfl
    exact ⟨.podWait res :: ls, s', _, by simp only [Sys.exec, hstep]; exact h1, h2⟩
  | sending b ret =>
    obtain ⟨ls, s', h1, h2⟩ := hsend s b ret hinv hs
    exact ⟨ls, s', ret, h1, h2⟩
  | joining ret =>
    obtain ⟨ls, s', h1, h2⟩ := Sys.can_join fancy ovf jobName a s ret hinv hs
    exact ⟨ls, s', ret, h1, h2⟩
  | returned ret => exact ⟨[], s, ret, rfl, hs⟩

/-! ## Every matching line has a leftmost record -/

theorem digits_split (t : List Char) :
    ∃ w r, (∀ c ∈ w, isDigit c = true) ∧ Stops isDigit r ∧ t = w ++ r := by
  induction t with
  | nil => exact ⟨[], [], by simp, fun c t' h => by simp at h, rfl⟩
  | cons c t ih =>
    by_cases hc : isDigit c = true
    · obtain ⟨w, r, hw, hr, e⟩ := ih
      refine ⟨c :: w, r, ?_, hr, by rw [e]; rfl⟩
      intro x hx
      rcases List.mem_cons.mp hx with rfl | hx
      · exact hc
      · exact hw x hx
    · refine ⟨[], c :: t, by simp, ?_, rfl⟩
      intro x t' h
      rw [List.cons.injEq] at h
      rw [← h.1]
      simpa using hc

/-- A text that begins with a digit begins with a byte count that the rest of
the text does not continue. -/
theorem byteCount_munch :
    ∀ (n : Nat) (t : List Char) (d : Char), t.length ≤ n → isDigit d = true →
      ∃ (g : List Char) (gs : List (List Char)) (post : List Char),
        IsDigits g ∧ (∀ x ∈ gs, IsDigits x) ∧ EndsNumber post ∧
        d :: t = byteCount g gs ++ post := by
  intro n
  induction n with
  | zero =>
    intro t d ht hd
    have : t = [] := List.length_eq_zero.mp (Nat.le_zero.mp ht)
    subst this
    exact ⟨[d], [], [], ⟨by simp, by simpa using hd⟩, by simp, endsNumber_nil, by simp [byteCount]⟩
  | succ n ih =>
    intro t d ht hd
    obtain ⟨w, r, hw, hr, e⟩ := digits_split t
    have hg : IsDigits (d :: w) := by
      refine ⟨by simp, ?_⟩
      intro x hx
      rcases List.mem_cons.mp hx with rfl | hx
      · exact hd
      · exact hw x hx
    by_cases h : ∃ d' t', r = ',' :: d' :: t' ∧ isDigit d' = true
    · obtain ⟨d', t', er, hd'⟩ := h
      have hlen : t'.length ≤ n := by
        have : t.length = w.length + (t'.length + 2) := by
          rw [e, er]
          simp
        omega
      obtain ⟨g', gs', post, hg', hgs', hpost, e'⟩ := ih t' d' hlen hd'
      refine ⟨d :: w, g' :: gs', post, hg, ?_, hpost, ?_⟩
      · intro x hx
        rcases List.mem_cons.mp hx with rfl | hx
        · exact hg'
        · exact hgs' x hx
      · rw [e, er, e']
        simp [byteCount]
    · refine ⟨d :: w, [], r, hg, by simp, ⟨hr, ?_⟩, by rw [e]; simp [byteCount]⟩
      intro c t' er
      cases hc : isDigit c with
      | false => rfl
      | true => exact absurd ⟨c, t', er, hc⟩ h

theorem leftmost_terminal :
    ∀ (n : Nat) (a : List Char) (d : Char) (b : List Char), a.length ≤ n →
      isDigit d = true →
      ∃ (pre : List Char) (d' : Char) (b' : List Char), isDigit d' = true ∧
        a ++ ("total size is ".toList ++ d :: b) = pre ++ ("total size is ".toList ++ d' :: b') ∧
        ∀ j e t, j < pre.length →
          (pre ++ ("total size is ".toList ++ d' :: b')).drop j =
            "total size is ".toList ++ e :: t → isDigit e = false := by
  intro n
  induction n with
  | zero =>
    intro a d b ha hd
    refine ⟨a, d, b, hd, rfl, ?_⟩
    intro j e t hj
    omega
  | succ n ih =>
    intro a d b ha hd
    by_cases h : ∃ j e t, j < a.length ∧
        (a ++ ("total size is ".toList ++ d :: b)).drop j =
          "total size is ".toList ++ e :: t ∧ isDigit e = true
    · obtain ⟨j, e, t, hj, hdrop, he⟩ := h
      have hsplit : a ++ ("total size is ".toList ++ d :: b) =
          (a ++ ("total size is ".toList ++ d :: b)).take j ++
            ("total size is ".toList ++ e :: t) := by
        rw [← hdrop, List.take_append_drop]
      have hlen : ((a ++ ("total size is ".toList ++ d :: b)).take j).length ≤ n := by
        rw [List.length_take]
        omega
      obtain ⟨pre, d', b', hd', e1, hfirst⟩ := ih _ e t hlen he
      exact ⟨pre, d', b', hd', hsplit.trans e1, hfirst⟩
    · refine ⟨a, d, b, hd, rfl, ?_⟩
      intro j e t hj hdrop
      cases he : isDigit e with
      | false => rfl
      | true => exact absurd ⟨j, e, t, hj, hdrop, he⟩ h

/-- Every line with a terminal summary has a first place where `total size is `
stands in front of a digit, followed by a byte count that the rest of the line
does not continue. -/
theorem terminal_summary_decomposition (line : List Char) (h : HasTerminalSummary line) :
    ∃ (pre g : List Char) (gs : List (List Char)) (post : List Char),
      IsDigits g ∧ (∀ x ∈ gs, IsDigits x) ∧ EndsNumber post ∧
      line = pre ++ ("total size is ".toList ++ (byteCount g gs ++ post)) ∧
      ∀ j d t, j < pre.length →
        (pre ++ ("total size is ".toList ++ (byteCount g gs ++ post))).drop j =
          "total size is ".toList ++ d :: t → isDigit d = false := by
  obtain ⟨a, d, b, hd, e⟩ := h
  obtain ⟨pre, d', b', hd', e1, hfirst⟩ := leftmost_terminal a.length a d b (le_refl _) hd
  obtain ⟨g, gs, post, hg, hgs, hpost, e2⟩ := byteCount_munch b'.length b' d' (le_refl _) hd'
  refine ⟨pre, g, gs, post, hg, hgs, hpost, ?_, ?_⟩
  · rw [e, e1, e2]
  · rw [← e2]
    exact hfirst

theorem leftmost_progress :
    ∀ (n : Nat) (a s : List Char), a.length ≤ n → BeginsWithProgress s →
      ∃ (pre s' : List Char), BeginsWithProgress s' ∧ a ++ s = pre ++ s' ∧
        ∀ j, j < pre.length → ¬ BeginsWithProgress ((pre ++ s').drop j) := by
  intro n
  induction n with
  | zero =>
    intro a s ha hs
    refine ⟨a, s, hs, rfl, ?_⟩
    intro j hj
    omega
  | succ n ih =>
    intro a s ha hs
    by_cases h : ∃ j, j < a.length ∧ BeginsWithProgress ((a ++ s).drop j)
    · obtain ⟨j, hj, hb⟩ := h
      have hlen : ((a ++ s).take j).length ≤ n := by
        rw [List.length_take]
        omega
      obtain ⟨pre, s', hs', e1, hfirst⟩ := ih _ _ hlen hb
      exact ⟨pre, s', hs', by rw [← e1, List.take_append_drop], hfirst⟩
    · refine ⟨a, s, hs, rfl, ?_⟩
      intro j hj hb
      exact h ⟨j, hj, hb⟩

/-- Every line in which an in-progress record begins somewhere has a leftmost
one. -/
theorem progress_record_decomposition (line : List Char)
    (h : ∃ a s, line = a ++ s ∧ BeginsWithProgress s) :
    ∃ (pre ws g : List Char) (gs : List (List Char)) (ws1 ps post : List Char),
      (∀ c ∈ ws, isSpace c = true) ∧ IsDigits g ∧ (∀ x ∈ gs, IsDigits x) ∧
      (ws1 ≠ [] ∧ ∀ c ∈ ws1, isSpace c = true) ∧ IsDigits ps ∧ ps.length ≤ 3 ∧
      line = pre ++ (ws ++ (byteCount g gs ++ (ws1 ++ (ps ++ '%' :: post)))) ∧
      ∀ j, j < pre.length → ¬ BeginsWithProgress
        ((pre ++ (ws ++ (byteCount g gs ++ (ws1 ++ (ps ++ '%' :: post))))).drop j) := by
  obtain ⟨a, s, e, hs⟩ := h
  obtain ⟨pre, s', hs', e1, hfirst⟩ := leftmost_progress a.length a s (le_refl _) hs
  obtain ⟨ws, g, gs, ws1, ps, post, hws, hg, hgs, hws1, hps, hlen, e2⟩ := hs'
  refine ⟨pre, ws, g, gs, ws1, ps, post, hws, hg, hgs, hws1, hps, hlen, ?_, ?_⟩
  · rw [e, e1, e2]
  · rw [← e2]
    exact hfirst

/-- The only error `parseLogLine` can return is the range error of `ParseInt` on
a byte count: every other field the patterns capture converts. -/
theorem parseLogLine_error_is_range (ovf : F64 → Int) (line : List Char) (err : NumError)
    (h : parseLogLine ovf line = .error err) :
    err.Func = "ParseInt" ∧ err.Err = .ErrRange := by
  rcases parseLogLine_cases ovf line with h1 | ⟨T, h1⟩ | ⟨T, P, _, h1⟩ | ⟨ds, h1⟩
  · rw [h1] at h; simp at h
  · rw [h1] at h; simp at h
  · rw [h1] at h; simp at h
  · rw [h1] at h
    simp only [Except.error.injEq] at h
    subst h
    exact ⟨rfl, rfl⟩

/-! ## The claims -/

/-- C1.  A line in which `total size is ` is followed by a byte count (digit
groups `g`, `gs` separated by commas, not continued by the text `post` after
it), this being the first place of the line where `total size is ` stands in
front of a digit, parses to the snapshot `{100, B, B}` without error, `B` being
the byte count read without its commas and fitting an `int64`.  The text `pre`
before and `post` after are arbitrary otherwise, so the line may match the
in-progress pattern as well.  Every line with a terminal summary is of this form
(`terminal_summary_decomposition`). -/
theorem parseLogLine_terminal_summary (ovf : F64 → Int) (pre g : List Char)
    (gs : List (List Char)) (post : List Char)
    (hg : IsDigits g) (hgs : ∀ x ∈ gs, IsDigits x) (hpost : EndsNumber post)
    (hfirst : ∀ j d t, j < pre.length →
      (pre ++ ("total size is ".toList ++ (byteCount g gs ++ post))).drop j =
        "total size is ".toList ++ d :: t → isDigit d = false)
    (hfit : decimal (g ++ gs.flatten) < 2 ^ 63) :
    parseLogLine ovf (pre ++ ("total size is ".toList ++ (byteCount g gs ++ post))) =
      .ok (some ⟨100, decimal (g ++ gs.flatten), decimal (g ++ gs.flatten)⟩) := by
  obtain ⟨w, x, h⟩ := FindStringSubmatch_rsyncEnd_first hg hgs hpost pre hfirst
  have hm := findNamedMatches_rsyncEnd h
  have hb : mapGet [("", x), ("bytes", byteCount g gs)] "bytes" = byteCount g gs := by
    simp [mapGet]
  simp only [parseLogLine, hm, hb, parseNumBytes_byteCount hg hgs, if_pos hfit]
  simp

/-- C1, witness.  The line `total size is 5,000,000` yields `{100, 5000000,
5000000}`; so does `1 5% total size is 5,000,000 x`, which matches the
in-progress pattern as well. -/
theorem parseLogLine_terminal_summary_witness :
    parseLogLine amd64 "total size is 5,000,000".toList =
      .ok (some ⟨100, 5000000, 5000000⟩) ∧
    parseLogLine amd64 "1 5% total size is 5,000,000 x".toList =
      .ok (some ⟨100, 5000000, 5000000⟩) :=
  ⟨parseLogLine_terminal_summary amd64 [] "5".toList ["000".toList, "000".toList] []
      (by decide) (by decide) endsNumber_nil (fun j d t hj => by simp at hj) (by decide),
    parseLogLine_terminal_summary amd64 "1 5% ".toList "5".toList
      ["000".toList, "000".toList] " x".toList (by decide) (by decide)
      ⟨fun c t h => by
          simp only [String.toList, List.cons.injEq] at h
          rw [← h.1]
          decide,
        fun c t h => by simp [String.toList] at h⟩
      (fun j d t hj hdrop => by
        simp only [String.toList, List.length_cons, List.length_nil] at hj
        interval_cases j <;> simp [String.toList] at hdrop)
      (by decide)⟩

/-- C2.  A line without terminal summary whose leftmost in-progress record is
`ws` (whitespace), a byte count of value `T` fitting an `int64`, `ws1`
(whitespace, not empty), a percentage `P` in `[1, 100]` written with one to three
digits `ps`, and `%`, parses without error to a snapshot with percentage `P`,
transferred `T` and a total that is at least `T`.  Every line in which an
in-progress record begins has a leftmost one (`progress_record_decomposition`). -/
theorem parseLogLine_in_progress (ovf : F64 → Int) (pre ws g : List Char)
    (gs : List (List Char)) (ws1 ps post : List Char)
    (hws : ∀ c ∈ ws, isSpace c = true) (hg : IsDigits g) (hgs : ∀ x ∈ gs, IsDigits x)
    (hws1 : ws1 ≠ [] ∧ ∀ c ∈ ws1, isSpace c = true)
    (hps : IsDigits ps) (hlen : ps.length ≤ 3)
    (hterm : ¬ HasTerminalSummary
      (pre ++ (ws ++ (byteCount g gs ++ (ws1 ++ (ps ++ '%' :: post))))))
    (hfirst : ∀ j, j < pre.length → ¬ BeginsWithProgress
      ((pre ++ (ws ++ (byteCount g gs ++ (ws1 ++ (ps ++ '%' :: post))))).drop j))
    (hfit : decimal (g ++ gs.flatten) < 2 ^ 63)
    (hP : 1 ≤ decimal ps ∧ decimal ps ≤ 100) :
    ∃ total : Int,
      parseLogLine ovf (pre ++ (ws ++ (byteCount g gs ++ (ws1 ++ (ps ++ '%' :: post))))) =
        .ok (some ⟨(decimal ps : Int), (decimal (g ++ gs.flatten) : Int), total⟩) ∧
      (decimal (g ++ gs.flatten) : Int) ≤ total := by
  have h := parseLogLine_progress_eq ovf pre ws g gs ws1 ps post hws hg hgs hws1 hps hlen
    hterm hfirst hfit
  have hne : ¬ (decimal ps : Int) = 0 := by omega
  rw [if_neg hne] at h
  refine ⟨_, h, ?_⟩
  split_ifs <;> omega

/-- C2, witness.  The line `  1,048,576  50%  12.5MB/s` yields a snapshot with
percentage 50, transferred 1048576 and a total of at least 1048576. -/
theorem parseLogLine_in_progress_witness :
    ∃ total : Int,
      parseLogLine amd64 "  1,048,576  50%  12.5MB/s".toList =
        .ok (some ⟨50, 1048576, total⟩) ∧ 1048576 ≤ total :=
  parseLogLine_in_progress amd64 [] "  ".toList "1".toList ["048".toList, "576".toList]
    "  ".toList "50".toList "  12.5MB/s".toList
    (by decide) (by decide) (by decide) (by decide) (by decide) (by decide)
    (not_hasTerminalSummary_of_not_mem (by decide))
    (fun j hj => by simp at hj) (by decide) (by decide)

/-- C3, counterexample.  On the line `29 50%` the returned total is 57, while
`29 / 50 × 100` truncated to an integer is 58 (and 58 is not less than 29). -/
theorem parseLogLine_total_not_exact :
    parseLogLine amd64 "29 50%".toList = .ok (some ⟨50, 29, 57⟩) ∧
    specEstimate 29 50 = 58 := by
  refine ⟨by decide, ?_⟩
  rw [specEstimate, Int.floor_eq_iff]
  norm_num

/-- C3, as amended.  On a line without terminal summary whose leftmost
in-progress record has the byte count `T` (fitting an `int64`) and the
percentage `P`, `parseLogLine` returns a snapshot (also for `P = 0`) with
percentage `P' = max P 1`, transferred `T` and total `max T E`, where `E` is
`int64((float64(T) / float64(P')) * 100)` evaluated in `float64` arithmetic. -/
theorem parseLogLine_total_estimate (ovf : F64 → Int) (pre ws g : List Char)
    (gs : List (List Char)) (ws1 ps post : List Char)
    (hws : ∀ c ∈ ws, isSpace c = true) (hg : IsDigits g) (hgs : ∀ x ∈ gs, IsDigits x)
    (hws1 : ws1 ≠ [] ∧ ∀ c ∈ ws1, isSpace c = true)
    (hps : IsDigits ps) (hlen : ps.length ≤ 3)
    (hterm : ¬ HasTerminalSummary
      (pre ++ (ws ++ (byteCount g gs ++ (ws1 ++ (ps ++ '%' :: post))))))
    (hfirst : ∀ j, j < pre.length → ¬ BeginsWithProgress
      ((pre ++ (ws ++ (byteCount g gs ++ (ws1 ++ (ps ++ '%' :: post))))).drop j))
    (hfit : decimal (g ++ gs.flatten) < 2 ^ 63) :
    parseLogLine ovf (pre ++ (ws ++ (byteCount g gs ++ (ws1 ++ (ps ++ '%' :: post))))) =
      .ok (some ⟨max (decimal ps : Int) 1, (decimal (g ++ gs.flatten) : Int),
        max (decimal (g ++ gs.flatten) : Int)
          (estimateTotal ovf (decimal (g ++ gs.flatten)) (max (decimal ps : Int) 1))⟩) := by
  have h := parseLogLine_progress_eq ovf pre ws g gs ws1 ps post hws hg hgs hws1 hps hlen
    hterm hfirst hfit
  have hP : (if (decimal ps : Int) = 0 then 1 else (decimal ps : Int)) =
      max (decimal ps : Int) 1 := by
    split_ifs <;> omega
  rw [hP] at h
  rw [h]
  congr 3
  rw [max_def]
  split_ifs <;> omega

/-- C3, witness.  The line `  1,048,576  50%` yields exactly `{50, 1048576,
2097152}`, and the line `5 0%` yields the snapshot `{1, 5, 500}`. -/
theorem parseLogLine_total_estimate_witness :
    parseLogLine amd64 "  1,048,576  50%".toList = .ok (some ⟨50, 1048576, 2097152⟩) ∧
    parseLogLine amd64 "5 0%".toList = .ok (some ⟨1, 5, 500⟩) :=
  ⟨parseLogLine_total_estimate amd64 [] "  ".toList "1".toList
      ["048".toList, "576".toList] "  ".toList "50".toList []
      (by decide) (by decide) (by decide) (by decide) (by decide) (by decide)
      (not_hasTerminalSummary_of_not_mem (by decide))
      (fun j hj => by simp at hj) (by decide),
    parseLogLine_total_estimate amd64 [] [] "5".toList [] " ".toList "0".toList []
      (by decide) (by decide) (by decide) (by decide) (by decide) (by decide)
      (not_hasTerminalSummary_of_not_mem (by decide))
      (fun j hj => by simp at hj) (by decide)⟩

/-- C4, counterexample.  The line `5 999%` yields a snapshot with percentage
999, which is not a well-formed snapshot of the data model. -/
theorem parseLogLine_percentage_above_100 :
    parseLogLine amd64 "5 999%".toList = .ok (some ⟨999, 5, 5⟩) ∧
    ¬ WellFormedSnapshot ⟨999, 5, 5⟩ := by
  refine ⟨by decide, ?_⟩
  simp [WellFormedSnapshot]

/-- C4, as amended.  Every snapshot `parseLogLine` returns has a percentage in
`[1, 999]`, non-negative byte counts and `transferred ≤ total`. -/
theorem parseLogLine_snapshot_bounds (ovf : F64 → Int) (line : List Char) (pr : progress)
    (h : parseLogLine ovf line = .ok (some pr)) :
    1 ≤ pr.percentage ∧ pr.percentage ≤ 999 ∧ 0 ≤ pr.transferred ∧ 0 ≤ pr.total ∧
      pr.transferred ≤ pr.total := by
  rcases parseLogLine_cases ovf line with h1 | ⟨T, h1⟩ | ⟨T, P, hP, h1⟩ | ⟨ds, h1⟩
  · rw [h1] at h; simp at h
  · rw [h1] at h
    simp only [Except.ok.injEq, Option.some.injEq] at h
    subst h
    simp
  · rw [h1] at h
    simp only [Except.ok.injEq, Option.some.injEq] at h
    subst h
    simp only
    refine ⟨?_, ?_, Int.natCast_nonneg T, ?_, ?_⟩ <;> split_ifs <;> omega
  · rw [h1] at h; simp at h

/-- C4, witness.  The snapshot of the line `5 999%`. -/
theorem parseLogLine_snapshot_bounds_witness :
    parseLogLine amd64 "5 999%".toList = .ok (some ⟨999, 5, 5⟩) ∧
    ((1 : Int) ≤ 999 ∧ (999 : Int) ≤ 999 ∧ (0 : Int) ≤ 5 ∧ (0 : Int) ≤ 5 ∧ (5 : Int) ≤ 5) :=
  ⟨by decide,
    parseLogLine_snapshot_bounds amd64 "5 999%".toList ⟨999, 5, 5⟩ (by decide)⟩

/-- C5, counterexample.  The line `99999999999999999999 50% total size is 5`
matches the in-progress pattern with a byte count that does not convert, and
yet yields the snapshot `{100, 5, 5}`; the line
`5 50% total size is 99999999999999999999` matches the in-progress pattern with
fields that convert, and yet yields an error.  In both the terminal pattern
matches too, and it alone is acted on. -/
theorem parseLogLine_second_match_ignored :
    (parseLogLine amd64 "99999999999999999999 50% total size is 5".toList =
        .ok (some ⟨100, 5, 5⟩) ∧
      findNamedMatches progressRegex
        "99999999999999999999 50% total size is 5".toList ≠ [] ∧
      parseNumBytes (mapGet (findNamedMatches progressRegex
        "99999999999999999999 50% total size is 5".toList) "bytes") =
        .error ⟨"ParseInt", "99999999999999999999".toList, .ErrRange⟩) ∧
    (parseLogLine amd64 "5 50% total size is 99999999999999999999".toList =
        .error ⟨"ParseInt", "99999999999999999999".toList, .ErrRange⟩ ∧
      findNamedMatches progressRegex
        "5 50% total size is 99999999999999999999".toList ≠ [] ∧
      Atoi (mapGet (findNamedMatches progressRegex
        "5 50% total size is 99999999999999999999".toList) "percentage") = .ok 50 ∧
      parseNumBytes (mapGet (findNamedMatches progressRegex
        "5 50% total size is 99999999999999999999".toList) "bytes") = .ok 5) := by
  decide

/-- C5, as amended.  The three outcomes of `parseLogLine` are decided by the
pattern it acts on: the terminal pattern when it matches, the in-progress
pattern only when the terminal pattern does not match.  The function returns no
snapshot and no error exactly when neither pattern matches.  It returns an error
exactly when the pattern acted on has matched and a numeric field of that match
does not convert, and the error is that of the conversion.  It returns a
snapshot exactly when the pattern acted on has matched and its numeric fields
convert.  Of the fields the patterns capture, the percentage always converts,
and the only error there is is the range error of `ParseInt` on a byte count. -/
theorem parseLogLine_outcome (ovf : F64 → Int) (line : List Char) :
    (parseLogLine ovf line = .ok none ↔
      findNamedMatches rsyncEndRegex line = [] ∧ findNamedMatches progressRegex line = []) ∧
    (∀ err, parseLogLine ovf line = .error err ↔
      (findNamedMatches rsyncEndRegex line ≠ [] ∧
        parseNumBytes (mapGet (findNamedMatches rsyncEndRegex line) "bytes") = .error err) ∨
      (findNamedMatches rsyncEndRegex line = [] ∧ findNamedMatches progressRegex line ≠ [] ∧
        (Atoi (mapGet (findNamedMatches progressRegex line) "percentage") = .error err ∨
          ((∃ n, Atoi (mapGet (findNamedMatches progressRegex line) "percentage") = .ok n) ∧
            parseNumBytes (mapGet (findNamedMatches progressRegex line) "bytes") =
              .error err)))) ∧
    ((∃ pr, parseLogLine ovf line = .ok (some pr)) ↔
      (findNamedMatches rsyncEndRegex line ≠ [] ∧
        ∃ n, parseNumBytes (mapGet (findNamedMatches rsyncEndRegex line) "bytes") = .ok n) ∨
      (findNamedMatches rsyncEndRegex line = [] ∧ findNamedMatches progressRegex line ≠ [] ∧
        (∃ n, Atoi (mapGet (findNamedMatches progressRegex line) "percentage") = .ok n) ∧
        ∃ t, parseNumBytes (mapGet (findNamedMatches progressRegex line) "bytes") = .ok t)) ∧
    (findNamedMatches progressRegex line ≠ [] →
      ∃ n, Atoi (mapGet (findNamedMatches progressRegex line) "percentage") = .ok n) ∧
    (∀ err, parseLogLine ovf line = .error err →
      err.Func = "ParseInt" ∧ err.Err = .ErrRange) := by
  have core :
      (parseLogLine ovf line = .ok none ↔
        findNamedMatches rsyncEndRegex line = [] ∧
          findNamedMatches progressRegex line = []) ∧
      (∀ err, parseLogLine ovf line = .error err ↔
        (findNamedMatches rsyncEndRegex line ≠ [] ∧
          parseNumBytes (mapGet (findNamedMatches rsyncEndRegex line) "bytes") =
            .error err) ∨
        (findNamedMatches rsyncEndRegex line = [] ∧
          findNamedMatches progressRegex line ≠ [] ∧
          (Atoi (mapGet (findNamedMatches progressRegex line) "percentage") = .error err ∨
            ((∃ n, Atoi (mapGet (findNamedMatches progressRegex line) "percentage") =
                .ok n) ∧
              parseNumBytes (mapGet (findNamedMatches progressRegex line) "bytes") =
                .error err)))) ∧
      ((∃ pr, parseLogLine ovf line = .ok (some pr)) ↔
        (findNamedMatches rsyncEndRegex line ≠ [] ∧
          ∃ n, parseNumBytes (mapGet (findNamedMatches rsyncEndRegex line) "bytes") =
            .ok n) ∨
        (findNamedMatches rsyncEndRegex line = [] ∧
          findNamedMatches progressRegex line ≠ [] ∧
          (∃ n, Atoi (mapGet (findNamedMatches progressRegex line) "percentage") = .ok n) ∧
          ∃ t, parseNumBytes (mapGet (findNamedMatches progressRegex line) "bytes") =
            .ok t)) := by
    simp only [parseLogLine]
    cases he : findNamedMatches rsyncEndRegex line with
    | nil =>
      cases hp : findNamedMatches progressRegex line with
      | nil => simp
      | cons a l =>
        cases hA : Atoi (mapGet (a :: l) "percentage") with
        | error e1 => simp
        | ok n =>
          cases hB : parseNumBytes (mapGet (a :: l) "bytes") with
          | error e2 => simp
          | ok t => simp
    | cons a l =>
      cases hB : parseNumBytes (mapGet (a :: l) "bytes") with
      | error e2 => simp
      | ok t => simp
  refine ⟨core.1, core.2.1, core.2.2, ?_, ?_⟩
  · intro hne
    rcases findNamedMatches_progress_cases line with hp | ⟨g, gs, ps, x, _, _, hps, hlen, hp⟩
    · exact absurd hp hne
    · have hpc : mapGet [("percentage", ps), ("", x), ("bytes", byteCount g gs)]
          "percentage" = ps := by simp [mapGet]
      rw [hp, hpc]
      exact ⟨_, (Atoi_digits hps hlen).1⟩
  · intro err herr
    exact parseLogLine_error_is_range ovf line err herr

/-- C5, witness.  The line `99999999999999999999 50%` matches the in-progress
pattern alone, with a byte count beyond the `int64` range, and yields the range
error of `ParseInt`; the line `5 50% total size is 99999999999999999999` yields
the error of the terminal match, the pattern acted on. -/
theorem parseLogLine_outcome_witness :
    parseLogLine amd64 "99999999999999999999 50%".toList =
      .error ⟨"ParseInt", "99999999999999999999".toList, .ErrRange⟩ ∧
    parseLogLine amd64 "5 50% total size is 99999999999999999999".toList =
      .error ⟨"ParseInt", "99999999999999999999".toList, .ErrRange⟩ :=
  ⟨((parseLogLine_outcome amd64 "99999999999999999999 50%".toList).2.1 _).mpr
      (Or.inr ⟨by decide, by decide, Or.inr ⟨⟨50, by decide⟩, by decide⟩⟩),
    ((parseLogLine_outcome amd64
        "5 50% total size is 99999999999999999999".toList).2.1 _).mpr
      (Or.inl ⟨by decide, by decide⟩)⟩

/-- C6.  In a batch `before ++ l :: after` where `l` parses to the snapshot `s`
and every line of `after` matches neither pattern, `getLatestProgress` returns
`s` and no error, whatever the lines `before` are.  A batch in which every line
parses to neither a snapshot nor an error (the empty batch too) yields no
snapshot and no error. -/
theorem getLatestProgress_latest (ovf : F64 → Int) :
    (∀ (before after : List (List Char)) (l : List Char) (s : progress),
      parseLogLine ovf l = .ok (some s) →
      (∀ a ∈ after, findNamedMatches rsyncEndRegex a = [] ∧
        findNamedMatches progressRegex a = []) →
      getLatestProgress ovf (before ++ l :: after) = .ok (some s)) ∧
    (∀ logs : List (List Char), (∀ l ∈ logs, parseLogLine ovf l = .ok none) →
      getLatestProgress ovf logs = .ok none) := by
  constructor
  · intro before after l s hl hafter
    rw [getLatestProgress_split ovf before after l
      (fun a ha => parseLogLine_no_match (hafter a ha)), getLatestProgress.scan, hl]
  · intro logs h
    exact scan_all_none ovf _ (fun l hl => h l (List.mem_reverse.mp hl))

/-- C6, witness.  A batch whose older lines hold another snapshot and a corrupt
record, and the empty batch. -/
theorem getLatestProgress_latest_witness :
    getLatestProgress amd64
      (["total size is 7".toList, "99999999999999999999 1%".toList] ++
        "  1,048,576  50%".toList :: ["building file list".toList, []]) =
      .ok (some ⟨50, 1048576, 2097152⟩) ∧
    getLatestProgress amd64 [] = .ok none :=
  ⟨(getLatestProgress_latest amd64).1
      ["total size is 7".toList, "99999999999999999999 1%".toList]
      ["building file list".toList, []] "  1,048,576  50%".toList ⟨50, 1048576, 2097152⟩
      (by decide) (by decide),
    (getLatestProgress_latest amd64).2 [] (by decide)⟩

/-- C7.  In a batch `before ++ l :: after` where `parseLogLine` returns the
error `err` on `l` and neither a snapshot nor an error on the lines of `after`,
`getLatestProgress` returns `err` and no snapshot, whatever the lines `before`
are. -/
theorem getLatestProgress_error (ovf : F64 → Int) (before after : List (List Char))
    (l : List Char) (err : NumError) (hl : parseLogLine ovf l = .error err)
    (hafter : ∀ a ∈ after, parseLogLine ovf a = .ok none) :
    getLatestProgress ovf (before ++ l :: after) = .error err := by
  rw [getLatestProgress_split ovf before after l hafter, getLatestProgress.scan, hl]

/-- C7, witness.  A batch with an older valid snapshot, one corrupt
progress-shaped line and no other matching line yields the error. -/
theorem getLatestProgress_error_witness :
    getLatestProgress amd64
      (["  1,048,576  50%".toList] ++
        "99999999999999999999 50%".toList :: ["building file list".toList]) =
      .error ⟨"ParseInt", "99999999999999999999".toList, .ErrRange⟩ :=
  getLatestProgress_error amd64 ["  1,048,576  50%".toList] ["building file list".toList]
    "99999999999999999999 50%".toList
    ⟨"ParseInt", "99999999999999999999".toList, .ErrRange⟩ (by decide) (by decide)

/-- C8.  When `Jobs.Create`, `waitUntilJobPodIsCreated` and
`waitUntilPodIsScheduled` succeed and `waitUntilPodIsNotRunning` returns a phase
without error: a phase other than `PodSucceeded` makes the function return the
error `job <name> failed` and send `false`; the phase `PodSucceeded` makes it
return `nil` and send `true`.  Whenever the reporter has been started, exactly
one value is sent, and it is `true` exactly when the function returns `nil`. -/
theorem CreateJobWaitTillCompleted_outcome (jobName : String) (c : Cluster) :
    (∀ pod phase, c.create = none → c.podCreated = .ok pod → c.scheduled = none →
      c.notRunning = .ok phase →
      (phase ≠ .PodSucceeded →
        (CreateJobWaitTillCompleted jobName c).err =
          some (.other ("job " ++ jobName ++ " failed")) ∧
        (CreateJobWaitTillCompleted jobName c).sent = [false]) ∧
      (phase = .PodSucceeded →
        (CreateJobWaitTillCompleted jobName c).err = none ∧
        (CreateJobWaitTillCompleted jobName c).sent = [true])) ∧
    ((CreateJobWaitTillCompleted jobName c).reporterStarted = true →
      ∃ b, (CreateJobWaitTillCompleted jobName c).sent = [b] ∧
        (b = true ↔ (CreateJobWaitTillCompleted jobName c).err = none)) := by
  constructor
  · intro pod phase h1 h2 h3 h4
    constructor
    · intro hp
      simp [CreateJobWaitTillCompleted, h1, h2, h3, h4, completion, hp]
    · intro hp
      simp [CreateJobWaitTillCompleted, h1, h2, h3, h4, completion, hp]
  · intro h
    cases h1 : c.create with
    | some err => simp [CreateJobWaitTillCompleted, h1] at h
    | none =>
      cases h2 : c.podCreated with
      | error err => simp [CreateJobWaitTillCompleted, h1, h2] at h
      | ok pod =>
        cases h3 : c.scheduled with
        | some err => simp [CreateJobWaitTillCompleted, h1, h2, h3] at h
        | none =>
          refine ⟨(completion jobName c.notRunning).1, ?_, ?_⟩
          · simp [CreateJobWaitTillCompleted, h1, h2, h3]
          · simpa [CreateJobWaitTillCompleted, h1, h2, h3] using
              completion_iff jobName c.notRunning

/-- C8, witness.  A pod that ends in phase `PodFailed`. -/
theorem CreateJobWaitTillCompleted_outcome_witness :
    (CreateJobWaitTillCompleted "rsync"
      ⟨none, .ok ⟨"default", "rsync-x7k2p"⟩, none, .ok .PodFailed⟩).err =
        some (.other "job rsync failed") ∧
    (CreateJobWaitTillCompleted "rsync"
      ⟨none, .ok ⟨"default", "rsync-x7k2p"⟩, none, .ok .PodFailed⟩).sent = [false] :=
  ((CreateJobWaitTillCompleted_outcome "rsync"
    ⟨none, .ok ⟨"default", "rsync-x7k2p"⟩, none, .ok .PodFailed⟩).1
      ⟨"default", "rsync-x7k2p"⟩ .PodFailed rfl rfl rfl rfl).1 (by decide)

/-- C9, counterexample.  A plain-mode reporter that observes the completion
signal with the value `false` returns without any fetch, although a fetch would
have returned a line. -/
theorem tailPodLogs_no_fetch_on_failure :
    tailPodLogs [(.recv false, ⟨1, .ok ["sent 5 bytes".toList], none⟩)] =
      ⟨0, [], some none⟩ := by
  decide

/-- C9, as amended.  In plain mode, a reporter that is still in its loop and
observes the completion signal with the value `true` fetches the logs once more
with its cursor, sends every fetched line to the debug log and returns `nil` (it
returns the error when the fetch fails); one that observes the value `false`
returns `nil` at once, with no fetch and no line logged.  In all cases it has
returned: the rounds after the signal change nothing. -/
theorem tailPodLogs_on_signal (rounds rest : List (Pick × Answers)) (a : Answers)
    (hrun : (tailPodLogs rounds).result = none) :
    (∀ ls, a.logs = .ok ls →
      tailPodLogs (rounds ++ (.recv true, a) :: rest) =
        ⟨(tailPodLogs rounds).since,
          (tailPodLogs rounds).effects ++
            .getLogs (some (tailPodLogs rounds).since) :: ls.map .debug,
          some none⟩) ∧
    (∀ err, a.logs = .error err →
      tailPodLogs (rounds ++ (.recv true, a) :: rest) =
        ⟨(tailPodLogs rounds).since,
          (tailPodLogs rounds).effects ++ [.getLogs (some (tailPodLogs rounds).since)],
          some (some err)⟩) ∧
    tailPodLogs (rounds ++ (.recv false, a) :: rest) =
      ⟨(tailPodLogs rounds).since, (tailPodLogs rounds).effects, some none⟩ := by
  refine ⟨?_, ?_, ?_⟩
  · intro ls hls
    rw [tailPodLogs_append, List.foldl_cons]
    have h1 : tailPodLogs.round (tailPodLogs rounds) (.recv true) a =
        ⟨(tailPodLogs rounds).since,
          (tailPodLogs rounds).effects ++
            .getLogs (some (tailPodLogs rounds).since) :: ls.map .debug,
          some none⟩ := by
      simp [tailPodLogs.round, hrun, logPodLogs, hls]
    rw [h1]
    exact foldl_tailPodLogs_done rest _ rfl
  · intro err herr
    rw [tailPodLogs_append, List.foldl_cons]
    have h1 : tailPodLogs.round (tailPodLogs rounds) (.recv true) a =
        ⟨(tailPodLogs rounds).since,
          (tailPodLogs rounds).effects ++ [.getLogs (some (tailPodLogs rounds).since)],
          some (some err)⟩ := by
      simp [tailPodLogs.round, hrun, logPodLogs, herr]
    rw [h1]
    exact foldl_tailPodLogs_done rest _ rfl
  · rw [tailPodLogs_append, List.foldl_cons]
    have h1 : tailPodLogs.round (tailPodLogs rounds) (.recv false) a =
        ⟨(tailPodLogs rounds).since, (tailPodLogs rounds).effects, some none⟩ := by
      simp [tailPodLogs.round, hrun]
    rw [h1]
    exact foldl_tailPodLogs_done rest _ rfl

/-- C9, witness.  After one tick, the signal `true` triggers one more fetch
(with the cursor the tick has set) and the fetched line is logged. -/
theorem tailPodLogs_on_signal_witness :
    tailPodLogs ([(.tick, ⟨7, .ok ["a".toList], none⟩)] ++
        (.recv true, ⟨9, .ok ["sent 5 bytes".toList], none⟩) :: []) =
      ⟨7, [.getLogs (some 0), .debug "a".toList] ++
          .getLogs (some 7) :: ["sent 5 bytes".toList].map .debug,
        some none⟩ :=
  (tailPodLogs_on_signal [(.tick, ⟨7, .ok ["a".toList], none⟩)] []
    ⟨9, .ok ["sent 5 bytes".toList], none⟩ (by decide)).1 ["sent 5 bytes".toList] rfl

/-- C10, counterexample.  A bar-mode run: the reporter reads a 100% snapshot at
a tick and returns; then the pod wait returns `PodSucceeded`, the supervisor
sends `true` and returns.  The value is still in the buffer of the channel: the
reporter has never received it. -/
theorem supervisor_returns_signal_unobserved :
    Sys.exec true amd64 "rsync" (Sys.init true (.ok []))
      [.tick ⟨1, .ok ["total size is 5".toList], none⟩, .podWait (.ok .PodSucceeded),
        .send, .join] =
      some ⟨.returned none, [true], [true],
        ⟨0, [.getLogs none, .getLogs (some 0), .changeMax64 5, .set64 5], some none⟩,
        none⟩ := by
  decide

/-- C10, as amended.  In every run of supervisor and reporter, in plain mode
and in bar mode: the send on `successCh` can always be taken (it never blocks);
and when the supervisor has returned, the reporter has returned before,
exactly one value has been sent, `true` exactly when the supervisor returns
`nil`, and the reporter has either received that value or has stopped without
it, the value then being still in the buffer. -/
theorem supervisor_joins_reporter (fancy : Bool) (ovf : F64 → Int) (jobName : String)
    (probe : Except GoError (List (List Char))) (labels : List Label) (s : Sys)
    (h : Sys.exec fancy ovf jobName (Sys.init fancy probe) labels = some s) :
    (∀ b ret, s.sup = .sending b ret →
      (Sys.step fancy ovf jobName s .send).isSome = true) ∧
    (∀ ret, s.sup = .returned ret →
      s.rep.result.isSome = true ∧
      ∃ b, s.sent = [b] ∧ (b = true ↔ ret = none) ∧
        ((s.received = some b ∧ s.chan = []) ∨ (s.received = none ∧ s.chan = [b]))) := by
  have hinv := Sys.exec_inv fancy ovf jobName labels _ s h (Sys.init_inv fancy probe)
  obtain ⟨_, hsup⟩ := hinv
  constructor
  · intro b ret hs
    rw [hs] at hsup
    simp [Sys.step, hs, hsup.2.1]
  · intro ret hs
    rw [hs] at hsup
    exact hsup

/-- C10, witness.  A plain-mode run in which the pod fails and the reporter
receives the signal `false` before the supervisor returns. -/
theorem supervisor_joins_reporter_witness :
    Sys.exec false amd64 "rsync" (Sys.init false (.ok []))
      [.podWait (.ok .PodFailed), .send, .recv ⟨1, .ok [], none⟩, .join] =
      some ⟨.returned (some (.other "job rsync failed")), [], [false], ⟨0, [], some none⟩,
        some false⟩ ∧
    ((⟨0, [], some none⟩ : Reporter).result.isSome = true ∧
      ∃ b, [false] = [b] ∧ (b = true ↔ some (GoError.other "job rsync failed") = none) ∧
        ((some false = some b ∧ ([] : List Bool) = []) ∨
          ((some false : Option Bool) = none ∧ [] = [b]))) :=
  ⟨by decide,
    (supervisor_joins_reporter false amd64 "rsync" (.ok [])
      [.podWait (.ok .PodFailed), .send, .recv ⟨1, .ok [], none⟩, .join]
      ⟨.returned (some (.other "job rsync failed")), [], [false], ⟨0, [], some none⟩,
        some false⟩
      (by decide)).2 (some (.other "job rsync failed")) rfl⟩

end PvMigrate
